import Mathlib

set_option maxHeartbeats 1000000

/-!
Verification of the tabular normalization pipeline of the
`sellos-apl-por-corfo` repository (`src/etl/transformers.py`,
`src/etl/post_processors.py`, `src/etl/config.py`).

The pandas `DataFrame` is modelled as an ordered list of column names, a
row-label index and a list of rows (lists of cells).  Cells are either the
missing-value marker `NaN`, a number (modelled as a rational, since the
pipeline only ever narrows numbers to machine integers well inside the
`int64` range), or a string.  Each transformation of `transformers.py` is
translated into a function on this model; operations that raise `KeyError`
on a missing column return `Option`.
-/

/-! ## Python string primitives used by `standardize_column_names` -/

/-- Whitespace characters recognised by Python's `str.strip()`: the full
CPython whitespace set for `str` (U+0009–U+000D, U+001C–U+001F, the
space, U+0085, U+00A0, U+1680, U+2000–U+200A, the line and paragraph
separators, U+202F, U+205F and U+3000). -/
def pyIsSpace (c : Char) : Bool :=
  ['\t', '\n', '\x0b', '\x0c', '\r', '\x1c', '\x1d', '\x1e', '\x1f', ' ',
   '\x85', '\xa0', ' ', ' ', ' ', ' ', ' ',
   ' ', ' ', ' ', ' ', ' ', ' ', ' ',
   ' ', ' ', ' ', ' ', '　'].contains c

/-- Case-folding table of Python's `str.lower()` on the ASCII letters and
the Latin-1 uppercase letters (U+00C0–U+00DE except the multiplication
sign U+00D7); characters outside this range are left unchanged by the
model. -/
def lowerTable : List (Char × Char) :=
  [('A', 'a'), ('B', 'b'), ('C', 'c'), ('D', 'd'), ('E', 'e'), ('F', 'f'),
   ('G', 'g'), ('H', 'h'), ('I', 'i'), ('J', 'j'), ('K', 'k'), ('L', 'l'),
   ('M', 'm'), ('N', 'n'), ('O', 'o'), ('P', 'p'), ('Q', 'q'), ('R', 'r'),
   ('S', 's'), ('T', 't'), ('U', 'u'), ('V', 'v'), ('W', 'w'), ('X', 'x'),
   ('Y', 'y'), ('Z', 'z'),
   ('À', 'à'), ('Á', 'á'), ('Â', 'â'), ('Ã', 'ã'), ('Ä', 'ä'), ('Å', 'å'),
   ('Æ', 'æ'), ('Ç', 'ç'), ('È', 'è'), ('É', 'é'), ('Ê', 'ê'), ('Ë', 'ë'),
   ('Ì', 'ì'), ('Í', 'í'), ('Î', 'î'), ('Ï', 'ï'), ('Ð', 'ð'), ('Ñ', 'ñ'),
   ('Ò', 'ò'), ('Ó', 'ó'), ('Ô', 'ô'), ('Õ', 'õ'), ('Ö', 'ö'), ('Ø', 'ø'),
   ('Ù', 'ù'), ('Ú', 'ú'), ('Û', 'û'), ('Ü', 'ü'), ('Ý', 'ý'), ('Þ', 'þ')]

/-- Python `str.lower()`, character by character. -/
def toLowerPy (c : Char) : Char := (lowerTable.lookup c).getD c

/-- Python `str.replace(a, b)` for single-character `a` and `b` acts on
each character independently; this is that per-character action. -/
def replCh (a b c : Char) : Char := if c = a then b else c

/-- The accent folds of `to_snake`: the chained
`replace("á","a") … replace("ú","u").replace("ñ","n")` lines, which act on
single characters and on disjoint sets, merged into one character map. -/
def foldTable : List (Char × Char) :=
  [('á', 'a'), ('é', 'e'), ('í', 'i'), ('ó', 'o'), ('ú', 'u'), ('ñ', 'n')]

/-- Per-character action of the six accent-folding replaces. -/
def foldAccentChar (c : Char) : Char := (foldTable.lookup c).getD c

/-- Python `str.strip(chars)`: remove the characters satisfying `p` from
both ends. -/
def pyStripChars (p : Char → Bool) (l : List Char) : List Char :=
  ((l.dropWhile p).reverse.dropWhile p).reverse

/-- Whether the list contains two adjacent underscores: the Python test
`"__" in value` that guards `to_snake`'s collapsing loop. -/
def hasDD : List Char → Bool
  | [] => false
  | [_] => false
  | c :: d :: rest => if c = '_' ∧ d = '_' then true else hasDD (d :: rest)

/-- One pass of Python's `value.replace("__", "_")`: left-to-right,
non-overlapping replacement of every `"__"` by `"_"`. -/
def pyReplaceDD : List Char → List Char
  | [] => []
  | [c] => [c]
  | c :: d :: rest =>
    if c = '_' ∧ d = '_' then '_' :: pyReplaceDD rest
    else c :: pyReplaceDD (d :: rest)

theorem pyReplaceDD_length_le : ∀ l : List Char, (pyReplaceDD l).length ≤ l.length
  | [] => by simp [pyReplaceDD]
  | [c] => by simp [pyReplaceDD]
  | c :: d :: rest => by
    unfold pyReplaceDD
    split
    · have := pyReplaceDD_length_le rest
      simp only [List.length_cons]; omega
    · have := pyReplaceDD_length_le (d :: rest)
      simp only [List.length_cons] at *; omega

theorem pyReplaceDD_length_lt :
    ∀ l : List Char, hasDD l = true → (pyReplaceDD l).length < l.length
  | [], h => by simp [hasDD] at h
  | [c], h => by simp [hasDD] at h
  | c :: d :: rest, h => by
    unfold pyReplaceDD
    unfold hasDD at h
    split
    · have := pyReplaceDD_length_le rest
      simp only [List.length_cons]; omega
    · rename_i hcd
      rw [if_neg hcd] at h
      have := pyReplaceDD_length_lt (d :: rest) h
      simp only [List.length_cons] at *; omega

/-- The collapsing loop of `to_snake`,
`while "__" in value: value = value.replace("__", "_")`, run with an
explicit iteration budget.  Each pass through the loop body strictly
shortens the string, so any budget of at least the string's length lets
the loop reach its fixed point. -/
def collapseFuel : Nat → List Char → List Char
  | 0, l => l
  | fuel + 1, l => if hasDD l = true then collapseFuel fuel (pyReplaceDD l) else l

/-- The collapsing loop of `to_snake` with the always-sufficient budget
`l.length`. -/
def collapseLoop (l : List Char) : List Char := collapseFuel l.length l

theorem collapseFuel_congr :
    ∀ (f g : Nat) (l : List Char), l.length ≤ f → l.length ≤ g →
      collapseFuel f l = collapseFuel g l
  | 0, 0, _, _, _ => rfl
  | 0, _ + 1, l, hf, _ => by
    have h0 : l = [] := List.eq_nil_of_length_eq_zero (Nat.le_zero.mp hf)
    subst h0; simp [collapseFuel, hasDD]
  | _ + 1, 0, l, _, hg => by
    have h0 : l = [] := List.eq_nil_of_length_eq_zero (Nat.le_zero.mp hg)
    subst h0; simp [collapseFuel, hasDD]
  | f + 1, g + 1, l, hf, hg => by
    simp only [collapseFuel]
    split
    · next h =>
      exact collapseFuel_congr f g (pyReplaceDD l)
        (by have := pyReplaceDD_length_lt l h; omega)
        (by have := pyReplaceDD_length_lt l h; omega)
    · rfl

/-- The loop satisfies its own loop equation: one test of the guard, one
replacement pass, and the loop again. -/
theorem collapseLoop_eq (l : List Char) :
    collapseLoop l = if hasDD l = true then collapseLoop (pyReplaceDD l) else l := by
  unfold collapseLoop
  cases hl : l.length with
  | zero =>
    have h0 : l = [] := List.eq_nil_of_length_eq_zero hl
    subst h0; simp [collapseFuel, hasDD]
  | succ n =>
    simp only [collapseFuel]
    split
    · next h =>
      exact collapseFuel_congr n (pyReplaceDD l).length (pyReplaceDD l)
        (by have := pyReplaceDD_length_lt l h; omega) (le_refl _)
    · rfl

/-- Collapsing every run of two or more underscores into a single
underscore, as §4.1 of the spec words it; used to compare against the
loop the source actually runs. -/
def collapseRuns : List Char → List Char
  | [] => []
  | [c] => [c]
  | c :: d :: rest =>
    if c = '_' ∧ d = '_' then collapseRuns (d :: rest)
    else c :: collapseRuns (d :: rest)

/-- The inner `to_snake` helper of `standardize_column_names`, line by
line: `strip()`, `lower()`, `replace(" ", "_")`, `replace("-", "_")`, the
six accent folds, the `"__"` collapsing loop, and `strip("_")`. -/
def to_snakeChars (l : List Char) : List Char :=
  let v1 := pyStripChars pyIsSpace l
  let v2 := v1.map toLowerPy
  let v3 := v2.map (replCh ' ' '_')
  let v4 := v3.map (replCh '-' '_')
  let v5 := v4.map foldAccentChar
  let v6 := collapseLoop v5
  pyStripChars (fun c => c == '_') v6

/-- `to_snake` on Lean strings. -/
def to_snake (s : String) : String := String.mk (to_snakeChars s.data)

example : to_snake "Año Adhesión Establecimiento" = "ano_adhesion_establecimiento" := by
  decide

example : to_snake "  Sector   Económico  " = "sector_economico" := by decide

example : to_snake "a\t_" = "a\t" := by decide

example : to_snake "a\t" = "a" := by decide

example : to_snake "a\x1c_" = "a\x1c" := by decide

example : to_snake "a\x1c" = "a" := by decide

example : to_snake "a _" = "a " := by decide

example : to_snake "a " = "a" := by decide

/-! ## The numeric parser backing `pd.to_numeric` -/

/-- Value of a digit string. -/
def digitsVal (l : List Char) : Nat := l.foldl (fun a c => a * 10 + (c.toNat - 48)) 0

/-- Parse an unsigned integer or decimal literal: digits, optionally a
point and further digits, with at least one digit present. -/
def parseUnsigned (l : List Char) : Option Rat :=
  let ip := l.takeWhile Char.isDigit
  let rest := l.dropWhile Char.isDigit
  match rest with
  | [] => if ip.isEmpty then none else some (mkRat (digitsVal ip) 1)
  | '.' :: fp =>
    if fp.all Char.isDigit ∧ (ip ≠ [] ∨ fp ≠ []) then
      some (mkRat (digitsVal (ip ++ fp)) (10 ^ fp.length))
    else none
  | _ => none

/-- The host numeric conversion used by `pd.to_numeric(errors="coerce")`
on a string: surrounding whitespace is ignored, an optional sign is
followed by an integer or decimal literal; anything else fails.  Exotic
accepted spellings (exponents, thousands separators) are outside the
scope of this model. -/
def parseNumChars (l : List Char) : Option Rat :=
  match pyStripChars pyIsSpace l with
  | '+' :: r => parseUnsigned r
  | '-' :: r => (parseUnsigned r).map (fun q => -q)
  | r => parseUnsigned r

/-! ## Cells and DataFrames -/

/-- One cell of a pandas DataFrame: the missing-value marker `NaN`, a
number (rational: the pipeline's numbers are integers and decimals), or a
string. -/
inductive Cell where
  | na : Cell
  | num : Rat → Cell
  | str : String → Cell
deriving DecidableEq

/-- Whether a cell is the missing-value marker. -/
def Cell.isNa : Cell → Bool
  | Cell.na => true
  | _ => false

/-- `pd.to_numeric(errors="coerce")` on one cell: numbers pass through,
strings are parsed, anything unparsable and the missing marker give
`none` (a `NaN` in the coerced column). -/
def toNumericCell : Cell → Option Rat
  | Cell.na => none
  | Cell.num q => some q
  | Cell.str s => parseNumChars s.data

/-- Narrowing a number to an integer, as numpy's `astype(int)` does:
truncation toward zero. -/
def ratTruncInt (q : Rat) : Int := Int.tdiv q.num (q.den : Int)

/-- The per-cell effect of `pd.to_numeric(errors="coerce").fillna(0).astype(int)`:
parsable values are narrowed to integers, everything else becomes 0. -/
def coerceCellInt (c : Cell) : Cell :=
  match toNumericCell c with
  | some q => Cell.num ((ratTruncInt q : Int) : Rat)
  | none => Cell.num 0

/-- `astype(str)` on one cell.  The missing marker stringifies to
`"nan"`; a whole number carries the `".0"` of its float64 repr (in this
pipeline only raw string cells ever reach `astype(str)`, through the
categorical filter, which runs before any integer cast). -/
def cellToStr : Cell → String
  | Cell.na => "nan"
  | Cell.str s => s
  | Cell.num q => if q.den = 1 then toString q.num ++ ".0" else toString q

/-- Python `str.lower()` on a whole string. -/
def lowerString (s : String) : String := String.mk (s.data.map toLowerPy)

/-- A pandas DataFrame: ordered column names, the row-label index, and the
rows.  A well-formed frame is rectangular with one label per row. -/
structure DataFrame where
  cols : List String
  index : List Nat
  rows : List (List Cell)
deriving DecidableEq

/-- Rectangularity invariant of a DataFrame. -/
def wellFormed (df : DataFrame) : Prop :=
  (∀ r ∈ df.rows, r.length = df.cols.length) ∧ df.index.length = df.rows.length

instance : DecidablePred wellFormed := fun df => by
  unfold wellFormed; infer_instance

/-- Cell of a row at a column position (missing marker out of range). -/
def getCell (r : List Cell) (j : Nat) : Cell := r.getD j Cell.na

/-- Keep the entries of `l` whose mask bit is set. -/
def maskKeep (mask : List Bool) (l : List α) : List α :=
  ((mask.zip l).filter (fun p => p.1)).map (fun p => p.2)

/-- Apply `f` to the element at position `j`, if any. -/
def modifyAt (f : α → α) : Nat → List α → List α
  | _, [] => []
  | 0, a :: l => f a :: l
  | n + 1, a :: l => a :: modifyAt f n l

/-- Position of a column label, `none` mirroring the `KeyError` a lookup
of a missing label raises. -/
def findCol (df : DataFrame) (c : String) : Option Nat := df.cols.findIdx? (· == c)

/-! ## The transformation steps of `transformers.py` -/

/-- Whether column `j` is entirely missing, over all rows. -/
def colIsEmpty (rows : List (List Cell)) (j : Nat) : Bool :=
  rows.all (fun r => (getCell r j).isNa)

/-- The column-keeping mask of `dropna(axis=1, how="all")`: bit `j` is
set when column `j` holds at least one value. -/
def emptyColMask (df : DataFrame) : List Bool :=
  (List.range df.cols.length).map (fun j => !colIsEmpty df.rows j)

/-- `dropna(axis=1, how="all")`: removes columns that are entirely
empty.  With zero rows every column counts as empty, as in pandas. -/
def drop_completely_empty_columns (df : DataFrame) : DataFrame :=
  { cols := maskKeep (emptyColMask df) df.cols, index := df.index,
    rows := df.rows.map (maskKeep (emptyColMask df)) }

/-- Whether every value of the row is missing. -/
def rowIsEmpty (r : List Cell) : Bool := r.all Cell.isNa

/-- The labelled rows kept by `dropna(axis=0, how="all")`. -/
def nonEmptyRowPairs (df : DataFrame) : List (Nat × List Cell) :=
  (df.index.zip df.rows).filter (fun p => !rowIsEmpty p.2)

/-- `dropna(axis=0, how="all")`: removes rows where all values are
missing, keeping their index labels. -/
def drop_completely_empty_rows (df : DataFrame) : DataFrame :=
  { cols := df.cols, index := (nonEmptyRowPairs df).map (fun p => p.1),
    rows := (nonEmptyRowPairs df).map (fun p => p.2) }

/-- `standardize_column_names`: renames every column to its snake_case
form. -/
def standardize_column_names (df : DataFrame) : DataFrame :=
  { df with cols := df.cols.map to_snake }

/-- `filter_rows_with_numeric_column`: keeps rows where the provided
column can be converted to a number; fails if the column is absent. -/
def filter_rows_with_numeric_column (df : DataFrame) (column : String) : Option DataFrame :=
  match findCol df column with
  | none => none
  | some j =>
    let pairs := (df.index.zip df.rows).filter
      (fun p => (toNumericCell (getCell p.2 j)).isSome)
    some { cols := df.cols, index := pairs.map (fun p => p.1),
           rows := pairs.map (fun p => p.2) }

/-- The single-column integer cast
`result[column] = pd.to_numeric(result[column], errors="coerce").fillna(0).astype(int)`,
the body of `make_integer_column` and of each iteration of
`enforce_integer_columns`. -/
def cast_integer_column (df : DataFrame) (column : String) : Option DataFrame :=
  match findCol df column with
  | none => none
  | some j => some { df with rows := df.rows.map (modifyAt coerceCellInt j) }

/-- `enforce_integer_columns`: the integer cast applied to each selected
column in turn. -/
def enforce_integer_columns (df : DataFrame) (columns : List String) : Option DataFrame :=
  columns.foldlM (fun d c => cast_integer_column d c) df

/-- Rank used to order cells of different kinds (numbers, then strings,
then the missing marker last, as pandas places `NaN` last). -/
def cellRank : Cell → Nat
  | Cell.num _ => 0
  | Cell.str _ => 1
  | Cell.na => 2

/-- Code-point lexicographic comparison, Python and numpy string order. -/
def charsLe : List Char → List Char → Bool
  | [], _ => true
  | _ :: _, [] => false
  | a :: x, b :: y =>
    if a.toNat < b.toNat then true
    else if b.toNat < a.toNat then false
    else charsLe x y

/-- Total comparison on cells backing the sort step: numbers by value,
strings by code points, the missing marker last; a mixed number/string
comparison, which raises in the host and never occurs in this pipeline's
sorts, falls back to the kind rank. -/
def cellLe (a b : Cell) : Bool :=
  match a, b with
  | Cell.num x, Cell.num y => decide (x ≤ y)
  | Cell.str x, Cell.str y => charsLe x.data y.data
  | a, b => decide (cellRank a ≤ cellRank b)

/-- Insert into a sorted list, before the first entry it compares at most
equal to. -/
def insertBy (le : α → α → Bool) (a : α) : List α → List α
  | [] => [a]
  | b :: l => if le a b then a :: b :: l else b :: insertBy le a l

/-- Insertion sort by a boolean comparison. -/
def sortBy (le : α → α → Bool) : List α → List α
  | [] => []
  | a :: l => insertBy le a (sortBy le l)

/-- `sort_by_column`: `sort_values(by=column, ascending=...)` followed by
`reset_index(drop=True)`; fails if the column is absent.  `sort_values`
leaves the relative order of tied keys to numpy's default quicksort; this
model sorts with a comparison sort whose tie order none of the proofs
below rely on. -/
def sort_by_column (df : DataFrame) (column : String) (ascending : Bool) : Option DataFrame :=
  match findCol df column with
  | none => none
  | some j =>
    let le : Nat × List Cell → Nat × List Cell → Bool := fun p q =>
      if ascending then cellLe (getCell p.2 j) (getCell q.2 j)
      else cellLe (getCell q.2 j) (getCell p.2 j)
    let pairs := sortBy le (df.index.zip df.rows)
    some { cols := df.cols, index := List.range pairs.length,
           rows := pairs.map (fun p => p.2) }

/-- The renamer returned by `make_column_renamer`: `df.rename(columns=mapping)`.
Mapping keys that match no column are ignored; every column is kept. -/
def rename_columns (mapping : List (String × String)) (df : DataFrame) : DataFrame :=
  { df with cols := df.cols.map (fun c => (mapping.lookup c).getD c) }

/-- The filter returned by `make_non_null_filter`:
`dropna(subset=required_columns, how="any")`, which fails when a subset
label is absent and otherwise keeps the rows with no missing value in the
selected columns. -/
def drop_nulls (columns : List String) (df : DataFrame) : Option DataFrame :=
  match columns.mapM (fun c => findCol df c) with
  | none => none
  | some js =>
    let pairs := (df.index.zip df.rows).filter
      (fun p => js.all (fun j => !(getCell p.2 j).isNa))
    some { cols := df.cols, index := pairs.map (fun p => p.1),
           rows := pairs.map (fun p => p.2) }

/-- The filter returned by `make_value_filter`: keeps rows whose value in
the column, stringified and lowercased, is among the lowercased allowed
values; the kept rows are untouched. -/
def filter_values (column : String) (allowed_values : List String) (df : DataFrame) :
    Option DataFrame :=
  match findCol df column with
  | none => none
  | some j =>
    let allowedKeys := allowed_values.map lowerString
    let pairs := (df.index.zip df.rows).filter
      (fun p => allowedKeys.contains (lowerString (cellToStr (getCell p.2 j))))
    some { cols := df.cols, index := pairs.map (fun p => p.1),
           rows := pairs.map (fun p => p.2) }

/-! ## The yearly summary of `post_processors.py` -/

/-- Suffix rule of `pd.merge`: a non-key column present on both sides
carries the side's suffix. -/
def suffixCol (key suffix : String) (otherCols : List String) (c : String) : String :=
  if c ≠ key ∧ otherCols.contains c then c ++ suffix else c

/-- `left.merge(right, on=key, how="outer", suffixes=(ls, rs))`.  Each
left row is matched with every right row with an equal key; unmatched
rows of either side appear once, with the other side's non-key columns
missing.  The merged frame gets a fresh contiguous index.  (pandas
arranges an outer join in key order; the caller below sorts by the key
right after, so this model simply lists matched rows first.) -/
def mergeOuterOn (left right : DataFrame) (key ls rs : String) : Option DataFrame :=
  match findCol left key, findCol right key with
  | some j1, some j2 =>
    let outCols := left.cols.map (suffixCol key ls right.cols) ++
      (right.cols.eraseIdx j2).map (suffixCol key rs left.cols)
    let leftPart := left.rows.flatMap (fun lr =>
      match right.rows.filter (fun rr => decide (getCell rr j2 = getCell lr j1)) with
      | [] => [lr ++ List.replicate (right.cols.length - 1) Cell.na]
      | ms => ms.map (fun rr => lr ++ rr.eraseIdx j2))
    let rightOnly := right.rows.filter
      (fun rr => !(left.rows.any (fun lr => decide (getCell lr j1 = getCell rr j2))))
    let rightPart := rightOnly.map (fun rr =>
      (List.range left.cols.length).map (fun i => if i = j1 then getCell rr j2 else Cell.na) ++
        rr.eraseIdx j2)
    let rows := leftPart ++ rightPart
    some { cols := outCols, index := List.range rows.length, rows := rows }
  | _, _ => none

/-- The five columns `build_yearly_summary` casts to integers. -/
def summaryIntColumns : List String :=
  ["year", "installations_adhesion", "companies_adhesion",
   "installations_certification", "companies_certification"]

/-- `build_yearly_summary` up to its final CSV write: the outer merge on
`"year"` with the program suffixes, the integer cast of the five
columns (the same `to_numeric/fillna(0)/astype(int)` line as
`cast_integer_column`), and the ascending sort by year with the index
renumbered. -/
def build_yearly_summary (adhesion_by_year certification_by_year : DataFrame) :
    Option DataFrame :=
  (mergeOuterOn adhesion_by_year certification_by_year "year" "_adhesion" "_certification").bind
    (fun merged =>
      (summaryIntColumns.foldlM (fun d c => cast_integer_column d c) merged).bind
        (fun coerced => sort_by_column coerced "year" true))

/-! ## Generic list lemmas -/

theorem zip_map_fst_snd_self (l : List (α × β)) :
    (l.map (fun p => p.1)).zip (l.map (fun p => p.2)) = l := by
  induction l with
  | nil => rfl
  | cons a l ih => simpa using ih

theorem filter_zip_map_snd_sublist (p : α × β → Bool) :
    ∀ (a : List α) (b : List β), ((((a.zip b).filter p).map (fun q => q.2))).Sublist b
  | [], b => by simp
  | _ :: _, [] => by simp
  | x :: a, y :: b => by
    rw [List.zip_cons_cons, List.filter_cons]
    split
    · exact List.Sublist.cons₂ y (filter_zip_map_snd_sublist p a b)
    · exact List.Sublist.cons y (filter_zip_map_snd_sublist p a b)

theorem lookup_filter_ne {k c : String} (l : List (String × String)) (h : ¬ c = k) :
    (l.filter (fun p => !(p.1 == k))).lookup c = l.lookup c := by
  induction l with
  | nil => rfl
  | cons a l ih =>
    by_cases hak : a.1 = k
    · have h1 : (a.1 == k) = true := by simpa using hak
      have h2 : (c == a.1) = false := by
        simp only [beq_eq_false_iff_ne]; exact fun hc => h (hc.trans hak)
      simp [List.filter_cons, h1, List.lookup, h2, ih]
    · have h1 : (a.1 == k) = false := by simpa using hak
      simp only [List.filter_cons, h1, Bool.not_false, if_pos]
      cases hca : c == a.1 <;> simp [List.lookup, hca, ih]

/-! ## Scenario frames used by the claims -/

/-- Scenario 2 of the spec: adhesion-by-year raw rows with a numeric year
and a `"Total"` footer row. -/
def scenarioYearFrame : DataFrame :=
  ⟨["year", "installations", "companies"], [0, 1],
   [[Cell.str "2010", Cell.str "5", Cell.str "3"],
    [Cell.str "Total", Cell.str "5", Cell.str "3"]]⟩

/-- Scenario 3 of the spec: company-size rows with two case variants of
PEQUEÑA and a stray label. -/
def scenarioSizeFrame : DataFrame :=
  ⟨["company_size", "companies"], [0, 1, 2],
   [[Cell.str "PEQUEÑA", Cell.num 1], [Cell.str "pequeña", Cell.num 2],
    [Cell.str "otra", Cell.num 3]]⟩

/-- C7: the numeric row filter keeps exactly the rows whose value in the
named column parses as a number, with kept rows (and their labels)
passed through unchanged — they form a sublist of the input rows — and of
the `"2010"`/`"Total"` rows only the `"2010"` one survives filtering on
`"year"`. -/
theorem numeric_row_filter_keeps_exactly_parsable_rows :
    (∀ (df : DataFrame) (column : String) (j : Nat),
      findCol df column = some j →
      filter_rows_with_numeric_column df column =
        some { cols := df.cols,
               index := ((df.index.zip df.rows).filter
                 (fun p => (toNumericCell (getCell p.2 j)).isSome)).map (fun p => p.1),
               rows := ((df.index.zip df.rows).filter
                 (fun p => (toNumericCell (getCell p.2 j)).isSome)).map (fun p => p.2) } ∧
      (((df.index.zip df.rows).filter
          (fun p => (toNumericCell (getCell p.2 j)).isSome)).map (fun p => p.2)).Sublist
        df.rows) ∧
    filter_rows_with_numeric_column scenarioYearFrame "year" =
      some { cols := ["year", "installations", "companies"], index := [0],
             rows := [[Cell.str "2010", Cell.str "5", Cell.str "3"]] } := by
  constructor
  · intro df column j h
    constructor
    · unfold filter_rows_with_numeric_column
      rw [h]
    · exact filter_zip_map_snd_sublist _ df.index df.rows
  · decide

/-- C9: the categorical filter keeps exactly the rows whose stringified,
lowercased value in the named column is among the lowercased allowed
labels; kept rows pass through unchanged (a sublist of the input), and
with `"PEQUEÑA"` allowed both case variants survive with their original
casing while `"otra"` is dropped. -/
theorem value_filter_keeps_exactly_allowed_case_insensitive :
    (∀ (df : DataFrame) (column : String) (allowed : List String) (j : Nat),
      findCol df column = some j →
      filter_values column allowed df =
        some { cols := df.cols,
               index := ((df.index.zip df.rows).filter
                 (fun p => (allowed.map lowerString).contains
                   (lowerString (cellToStr (getCell p.2 j))))).map (fun p => p.1),
               rows := ((df.index.zip df.rows).filter
                 (fun p => (allowed.map lowerString).contains
                   (lowerString (cellToStr (getCell p.2 j))))).map (fun p => p.2) } ∧
      (((df.index.zip df.rows).filter
          (fun p => (allowed.map lowerString).contains
            (lowerString (cellToStr (getCell p.2 j))))).map (fun p => p.2)).Sublist
        df.rows) ∧
    filter_values "company_size" ["PEQUEÑA", "MICRO", "MEDIANA", "GRANDE", "SSPP"]
        scenarioSizeFrame =
      some { cols := ["company_size", "companies"], index := [0, 1],
             rows := [[Cell.str "PEQUEÑA", Cell.num 1], [Cell.str "pequeña", Cell.num 2]] } := by
  constructor
  · intro df column allowed j h
    constructor
    · unfold filter_values
      rw [h]
    · exact filter_zip_map_snd_sublist _ df.index df.rows
  · decide

/-- Witness for C7 at the scenario frame: the hypothesis `findCol` is
discharged at column position 0. -/
theorem numeric_row_filter_keeps_exactly_parsable_rows_witness :
    filter_rows_with_numeric_column scenarioYearFrame "year" =
      some { cols := ["year", "installations", "companies"], index := [0],
             rows := [[Cell.str "2010", Cell.str "5", Cell.str "3"]] } := by
  exact (numeric_row_filter_keeps_exactly_parsable_rows.1 scenarioYearFrame "year" 0 rfl).1

/-- Witness for C9 at the scenario frame: the hypothesis `findCol` is
discharged at column position 0. -/
theorem value_filter_keeps_exactly_allowed_case_insensitive_witness :
    filter_values "company_size" ["PEQUEÑA", "MICRO", "MEDIANA", "GRANDE", "SSPP"]
        scenarioSizeFrame =
      some { cols := ["company_size", "companies"], index := [0, 1],
             rows := [[Cell.str "PEQUEÑA", Cell.num 1], [Cell.str "pequeña", Cell.num 2]] } := by
  exact (value_filter_keeps_exactly_allowed_case_insensitive.1 scenarioSizeFrame "company_size"
    ["PEQUEÑA", "MICRO", "MEDIANA", "GRANDE", "SSPP"] 0 rfl).1

/-! ## More helper lemmas -/

theorem findIdx?_lt_length_from {p : α → Bool} :
    ∀ (l : List α) (i j : Nat), List.findIdx? p l i = some j → j < i + l.length := by
  intro l
  induction l with
  | nil => intro i j h; rw [List.findIdx?_nil] at h; cases h
  | cons a l ih =>
    intro i j h
    rw [List.findIdx?_cons] at h
    by_cases hp : p a = true
    · rw [if_pos hp] at h
      cases h; simp
    · rw [if_neg hp] at h
      have := ih (i + 1) j h
      simp only [List.length_cons]
      omega

theorem findIdx?_lt_length {p : α → Bool} {l : List α} {j : Nat}
    (h : l.findIdx? p = some j) : j < l.length := by
  have := findIdx?_lt_length_from l 0 j h
  omega

theorem lookup_eq_none_of_not_mem_keys {c : String} :
    ∀ {l : List (String × String)}, ¬ c ∈ l.map (fun p => p.1) → l.lookup c = none := by
  intro l
  induction l with
  | nil => intro _; rfl
  | cons a l ih =>
    intro h
    simp only [List.map_cons, List.mem_cons, not_or] at h
    have hca : (c == a.1) = false := by simpa using h.1
    simp [List.lookup, hca, ih h.2]

theorem modifyAt_length (f : α → α) : ∀ (j : Nat) (l : List α), (modifyAt f j l).length = l.length
  | j, [] => by cases j <;> rfl
  | 0, _ :: _ => rfl
  | j + 1, _ :: l => by simp [modifyAt, modifyAt_length f j l]

theorem getCell_modifyAt_self (f : Cell → Cell) :
    ∀ (j : Nat) (r : List Cell), j < r.length →
      getCell (modifyAt f j r) j = f (getCell r j)
  | _, [], h => by simp at h
  | 0, a :: r, _ => by simp [modifyAt, getCell]
  | j + 1, a :: r, h => by
    simp only [modifyAt, getCell, List.getD_cons_succ]
    exact getCell_modifyAt_self f j r (by simpa using h)

theorem getCell_modifyAt_cases (f : Cell → Cell) :
    ∀ (j' j : Nat) (r : List Cell),
      getCell (modifyAt f j' r) j = getCell r j ∨
      getCell (modifyAt f j' r) j = f (getCell r j)
  | j', _, [] => by cases j' <;> exact Or.inl rfl
  | 0, 0, a :: r => Or.inr (by simp [modifyAt, getCell])
  | 0, j + 1, a :: r => Or.inl (by simp [modifyAt, getCell])
  | j' + 1, 0, a :: r => Or.inl (by simp [modifyAt, getCell])
  | j' + 1, j + 1, a :: r => by
    simp only [modifyAt, getCell, List.getD_cons_succ]
    exact getCell_modifyAt_cases f j' j r

/-- Every cell produced by the integer coercion is a whole number. -/
theorem coerceCellInt_integral (c : Cell) : ∃ k : Int, coerceCellInt c = Cell.num (k : Rat) := by
  unfold coerceCellInt
  cases toNumericCell c with
  | none => exact ⟨0, by norm_num⟩
  | some q => exact ⟨ratTruncInt q, rfl⟩

theorem cast_integer_column_eq {df : DataFrame} {column : String} {j : Nat}
    (h : findCol df column = some j) :
    cast_integer_column df column =
      some { df with rows := df.rows.map (modifyAt coerceCellInt j) } := by
  unfold cast_integer_column
  rw [h]

/-- The integer cast preserves well-formedness. -/
theorem cast_integer_column_wellFormed {df out : DataFrame} {column : String}
    (h : cast_integer_column df column = some out) (hwf : wellFormed df) :
    wellFormed out := by
  unfold cast_integer_column at h
  cases hf : findCol df column with
  | none => rw [hf] at h; cases h
  | some j =>
    rw [hf] at h
    cases h
    obtain ⟨hrect, hidx⟩ := hwf
    refine ⟨?_, by simpa using hidx⟩
    intro r hr
    simp only [List.mem_map] at hr
    obtain ⟨r0, hr0, rfl⟩ := hr
    simpa [modifyAt_length] using hrect r0 hr0

theorem cast_integer_column_shape {df out : DataFrame} {column : String}
    (h : cast_integer_column df column = some out) :
    out.cols = df.cols ∧ out.index = df.index ∧ out.rows.length = df.rows.length := by
  unfold cast_integer_column at h
  cases hf : findCol df column with
  | none => rw [hf] at h; cases h
  | some j => rw [hf] at h; cases h; exact ⟨rfl, rfl, by simp⟩

/-- A column-wise invariant holds of every row after a further integer
cast if it held before: the cast either leaves a position untouched or
rewrites it to an integer cell, and integer cells satisfy the invariant. -/
theorem cast_integer_column_preserves_integral {df out : DataFrame} {column : String} {j : Nat}
    (h : cast_integer_column df column = some out)
    (hin : ∀ r ∈ df.rows, ∃ k : Int, getCell r j = Cell.num (k : Rat)) :
    ∀ r ∈ out.rows, ∃ k : Int, getCell r j = Cell.num (k : Rat) := by
  unfold cast_integer_column at h
  cases hf : findCol df column with
  | none => rw [hf] at h; cases h
  | some j' =>
    rw [hf] at h
    cases h
    intro r hr
    simp only [List.mem_map] at hr
    obtain ⟨r0, hr0, rfl⟩ := hr
    rcases getCell_modifyAt_cases coerceCellInt j' j r0 with hc | hc
    · rw [hc]; exact hin r0 hr0
    · rw [hc]; exact coerceCellInt_integral _

/-- The column-wise integrality invariant survives any further sequence
of integer casts. -/
theorem foldl_cast_preserves_integral {j : Nat} :
    ∀ (cs : List String) (d out : DataFrame),
      List.foldlM (fun d c => cast_integer_column d c) d cs = some out →
      (∀ r ∈ d.rows, ∃ k : Int, getCell r j = Cell.num (k : Rat)) →
      ∀ r ∈ out.rows, ∃ k : Int, getCell r j = Cell.num (k : Rat)
  | [], d, out, h, hint => by
    rw [List.foldlM_nil] at h
    cases h
    exact hint
  | c :: cs, d, out, h, hint => by
    rw [List.foldlM_cons] at h
    simp only [bind, Option.bind_eq_some] at h
    obtain ⟨d2, hd2, hrest⟩ := h
    exact foldl_cast_preserves_integral cs d2 out hrest
      (cast_integer_column_preserves_integral hd2 hint)

theorem enforce_integer_columns_spec :
    ∀ (columns : List String) (df out : DataFrame),
      enforce_integer_columns df columns = some out →
      out.cols = df.cols ∧ out.index = df.index ∧ out.rows.length = df.rows.length ∧
      (wellFormed df →
        ∀ c ∈ columns, ∀ j, findCol df c = some j →
          ∀ r ∈ out.rows, ∃ k : Int, getCell r j = Cell.num (k : Rat))
  | [], df, out, h => by
    unfold enforce_integer_columns at h
    rw [List.foldlM_nil] at h
    cases h
    exact ⟨rfl, rfl, rfl, by intro _ c hc; simp at hc⟩
  | column :: columns, df, out, h => by
    unfold enforce_integer_columns at h
    rw [List.foldlM_cons] at h
    simp only [bind, Option.bind_eq_some] at h
    obtain ⟨d, hd, hrest⟩ := h
    have ih := enforce_integer_columns_spec columns d out hrest
    have hshape := cast_integer_column_shape hd
    refine ⟨ih.1.trans hshape.1, ih.2.1.trans hshape.2.1, ih.2.2.1.trans hshape.2.2, ?_⟩
    intro hwf c hc j hj r hr
    rcases List.mem_cons.mp hc with rfl | hc'
    · -- the head column: the cast installs integers, the tail casts keep them
      have hint : ∀ r ∈ d.rows, ∃ k : Int, getCell r j = Cell.num (k : Rat) := by
        rw [cast_integer_column_eq hj] at hd
        cases hd
        intro r' hr'
        simp only [List.mem_map] at hr'
        obtain ⟨r0, hr0, rfl⟩ := hr'
        have hlen : r0.length = df.cols.length := hwf.1 r0 hr0
        have hjlt : j < r0.length := by
          rw [hlen]; exact findIdx?_lt_length hj
        rw [getCell_modifyAt_self coerceCellInt j r0 hjlt]
        exact coerceCellInt_integral _
      exact foldl_cast_preserves_integral columns d out hrest hint r hr
    · -- a tail column: apply the inductive hypothesis over the tail
      have hwfd : wellFormed d := cast_integer_column_wellFormed hd hwf
      have hfind : findCol d c = some j := by
        unfold findCol
        rw [hshape.1]
        exact hj
      exact ih.2.2.2 hwfd c hc' j hfind r hr

/-- Frame with a castable and a missing installations value, to exercise
the integer coercion. -/
def scenarioCastFrame : DataFrame :=
  ⟨["company_size", "installations"], [0, 1],
   [[Cell.str "MICRO", Cell.str "5"], [Cell.str "x", Cell.na]]⟩

/-- C8: integer coercion never drops a row.  Cell-wise, an unparsable or
missing value becomes 0 and a parsable one is narrowed to an integer;
the single-column cast rewrites exactly the selected column and keeps
the row count, and the multi-column enforcer keeps shape and row count
and leaves every enforced column holding whole numbers with no missing
markers. -/
theorem integer_coercion_total_and_keeps_rows :
    (∀ c : Cell,
      (toNumericCell c = none → coerceCellInt c = Cell.num 0) ∧
      (∀ q : Rat, toNumericCell c = some q →
        coerceCellInt c = Cell.num ((ratTruncInt q : Int) : Rat)) ∧
      ∃ k : Int, coerceCellInt c = Cell.num (k : Rat)) ∧
    (∀ (df : DataFrame) (column : String) (j : Nat),
      findCol df column = some j →
      cast_integer_column df column =
        some { df with rows := df.rows.map (modifyAt coerceCellInt j) } ∧
      (df.rows.map (modifyAt coerceCellInt j)).length = df.rows.length ∧
      (wellFormed df → ∀ r ∈ df.rows.map (modifyAt coerceCellInt j),
        ∃ k : Int, getCell r j = Cell.num (k : Rat))) ∧
    (∀ (df : DataFrame) (columns : List String) (out : DataFrame),
      enforce_integer_columns df columns = some out →
      out.cols = df.cols ∧ out.index = df.index ∧ out.rows.length = df.rows.length ∧
      (wellFormed df →
        ∀ c ∈ columns, ∀ j, findCol df c = some j →
          ∀ r ∈ out.rows, ∃ k : Int, getCell r j = Cell.num (k : Rat))) := by
  refine ⟨?_, ?_, ?_⟩
  · intro c
    refine ⟨?_, ?_, coerceCellInt_integral c⟩
    · intro h; unfold coerceCellInt; rw [h]
    · intro q h; unfold coerceCellInt; rw [h]
  · intro df column j h
    refine ⟨cast_integer_column_eq h, by simp, ?_⟩
    intro hwf r hr
    simp only [List.mem_map] at hr
    obtain ⟨r0, hr0, rfl⟩ := hr
    have hjlt : j < r0.length := by
      rw [hwf.1 r0 hr0]; exact findIdx?_lt_length h
    rw [getCell_modifyAt_self coerceCellInt j r0 hjlt]
    exact coerceCellInt_integral _
  · intro df columns out h
    exact enforce_integer_columns_spec columns df out h

/-- Witness for C8: the single-column integer cast at the concrete frame,
with the `findCol` hypothesis discharged at position 1; `"5"` becomes the
integer 5 and the missing value becomes 0, and both rows survive. -/
theorem integer_coercion_total_and_keeps_rows_witness :
    cast_integer_column scenarioCastFrame "installations" =
      some ⟨["company_size", "installations"], [0, 1],
            [[Cell.str "MICRO", Cell.num 5], [Cell.str "x", Cell.num 0]]⟩ := by
  rw [(integer_coercion_total_and_keeps_rows.2.1 scenarioCastFrame "installations" 1 rfl).1]
  decide

/-- Frame for scenario 5 of the spec: no `"foo"` column, so the renamer
has nothing to do and a later step requiring `"year"` fails. -/
def scenarioRenameFrame : DataFrame := ⟨["x"], [0], [[Cell.str "1"]]⟩

/-- C6: the column renamer is a total function that never drops a column
and never touches rows or index; a mapping key matching no column is a
no-op (the mapping may be pruned of it without changing the result);
unmapped columns keep their names; and in scenario 5 the missing-column
error comes from the later numeric filter while the rename succeeds
unchanged. -/
theorem column_renamer_never_fails_missing_column_error_is_late :
    (∀ (mapping : List (String × String)) (df : DataFrame),
      (rename_columns mapping df).rows = df.rows ∧
      (rename_columns mapping df).index = df.index ∧
      (rename_columns mapping df).cols.length = df.cols.length) ∧
    (∀ (mapping : List (String × String)) (df : DataFrame) (k : String),
      ¬ k ∈ df.cols →
      rename_columns mapping df =
        rename_columns (mapping.filter (fun p => !(p.1 == k))) df) ∧
    (∀ (mapping : List (String × String)) (df : DataFrame) (j : Nat)
      (hj : j < df.cols.length),
      ¬ df.cols[j] ∈ mapping.map (fun p => p.1) →
      (rename_columns mapping df).cols.getD j "" = df.cols[j]) ∧
    (rename_columns [("foo", "year")] scenarioRenameFrame = scenarioRenameFrame ∧
      filter_rows_with_numeric_column
        (rename_columns [("foo", "year")] scenarioRenameFrame) "year" = none) := by
  refine ⟨?_, ?_, ?_, by decide⟩
  · intro mapping df
    exact ⟨rfl, rfl, by simp [rename_columns]⟩
  · intro mapping df k hk
    have hmap : df.cols.map (fun c => ((mapping.lookup c).getD c)) =
        df.cols.map (fun c =>
          (((mapping.filter (fun p => !(p.1 == k))).lookup c).getD c)) := by
      refine List.map_congr_left ?_
      intro c hc
      have hne : ¬ c = k := fun hck => hk (by rw [← hck]; exact hc)
      rw [lookup_filter_ne mapping hne]
    exact congrArg (fun cs => DataFrame.mk cs df.index df.rows) hmap
  · intro mapping df j hj hmem
    have hj2 : j < (df.cols.map (fun c => ((mapping.lookup c).getD c))).length := by
      simpa using hj
    unfold rename_columns
    rw [List.getD_eq_getElem _ _ hj2]
    simp only [List.getElem_map]
    rw [lookup_eq_none_of_not_mem_keys hmem]
    rfl

/-- Witness for C6: pruning the unmatched key `"foo"` from the mapping
does not change the rename, discharged at the scenario frame. -/
theorem column_renamer_never_fails_missing_column_error_is_late_witness :
    rename_columns [("foo", "year")] scenarioRenameFrame =
      rename_columns (([("foo", "year")]).filter (fun p => !(p.1 == "foo")))
        scenarioRenameFrame := by
  exact column_renamer_never_fails_missing_column_error_is_late.2.1
    [("foo", "year")] scenarioRenameFrame "foo" (by decide)

/-! ## Row-count lemmas -/

theorem maskKeep_length_le (mask : List Bool) (l : List α) :
    (maskKeep mask l).length ≤ l.length := by
  unfold maskKeep
  rw [List.length_map]
  calc ((mask.zip l).filter (fun p => p.1)).length
      ≤ (mask.zip l).length := List.length_filter_le _ _
    _ ≤ l.length := by rw [List.length_zip]; omega

theorem filter_zip_length_le (p : Nat × List Cell → Bool) (a : List Nat)
    (b : List (List Cell)) : (((a.zip b).filter p).map (fun q => q.2)).length ≤ b.length := by
  rw [List.length_map]
  calc ((a.zip b).filter p).length ≤ (a.zip b).length := List.length_filter_le _ _
    _ ≤ b.length := by rw [List.length_zip]; omega

theorem length_insertBy (le : α → α → Bool) (a : α) :
    ∀ l : List α, (insertBy le a l).length = l.length + 1
  | [] => rfl
  | b :: l => by
    unfold insertBy
    split
    · simp
    · simp [length_insertBy le a l]

theorem insertBy_perm (le : α → α → Bool) (a : α) :
    ∀ l : List α, (insertBy le a l).Perm (a :: l)
  | [] => List.Perm.refl _
  | b :: l => by
    unfold insertBy
    split
    · exact List.Perm.refl _
    · exact ((insertBy_perm le a l).cons b).trans (List.Perm.swap a b l)

theorem sortBy_perm (le : α → α → Bool) : ∀ l : List α, (sortBy le l).Perm l
  | [] => List.Perm.refl _
  | a :: l => (insertBy_perm le a (sortBy le l)).trans ((sortBy_perm le l).cons a)

theorem sortBy_length (le : α → α → Bool) (l : List α) : (sortBy le l).length = l.length :=
  (sortBy_perm le l).length_eq

/-- Frame whose only company-size value is missing: the non-null filter
drops its row. -/
def scenarioNullFrame : DataFrame := ⟨["company_size"], [0], [[Cell.na]]⟩

/-- C3 counterexample: the non-null row filter (`make_non_null_filter`,
used by the adhesion-by-size chain) is neither the numeric row filter nor
the categorical value filter, yet it succeeds on this frame and does not
preserve the row count: one input row, zero output rows. -/
theorem non_null_filter_changes_row_count :
    drop_nulls ["company_size"] scenarioNullFrame =
      some ⟨["company_size"], [], []⟩ ∧
    ((⟨["company_size"], [], []⟩ : DataFrame)).rows.length ≠
      scenarioNullFrame.rows.length := by
  constructor
  · decide
  · decide

/-- C3 as amended: the two structural drops never increase row or column
count, and the renamer, the name standardizer, the integer casts and the
sorter preserve the row count exactly; the three row filters — numeric,
categorical, and also the non-null filter, which the original claim
overlooked — only ever shrink the row count. -/
theorem row_count_invariants_amended :
    (∀ df : DataFrame,
      (drop_completely_empty_columns df).rows.length = df.rows.length ∧
      (drop_completely_empty_columns df).cols.length ≤ df.cols.length ∧
      (drop_completely_empty_rows df).rows.length ≤ df.rows.length ∧
      (drop_completely_empty_rows df).cols = df.cols ∧
      (standardize_column_names df).rows.length = df.rows.length) ∧
    (∀ (mapping : List (String × String)) (df : DataFrame),
      (rename_columns mapping df).rows.length = df.rows.length) ∧
    (∀ (df out : DataFrame) (column : String),
      cast_integer_column df column = some out → out.rows.length = df.rows.length) ∧
    (∀ (df out : DataFrame) (columns : List String),
      enforce_integer_columns df columns = some out → out.rows.length = df.rows.length) ∧
    (∀ (df out : DataFrame) (column : String) (ascending : Bool),
      wellFormed df → sort_by_column df column ascending = some out →
      out.rows.length = df.rows.length) ∧
    (∀ (df out : DataFrame) (column : String),
      filter_rows_with_numeric_column df column = some out →
      out.rows.length ≤ df.rows.length) ∧
    (∀ (df out : DataFrame) (columns : List String),
      drop_nulls columns df = some out → out.rows.length ≤ df.rows.length) ∧
    (∀ (df out : DataFrame) (column : String) (allowed : List String),
      filter_values column allowed df = some out → out.rows.length ≤ df.rows.length) := by
  refine ⟨?_, ?_, ?_, ?_, ?_, ?_, ?_, ?_⟩
  · intro df
    refine ⟨by simp [drop_completely_empty_columns], ?_, ?_, rfl, rfl⟩
    · exact maskKeep_length_le _ _
    · exact filter_zip_length_le _ _ _
  · intro mapping df
    rfl
  · intro df out column h
    exact (cast_integer_column_shape h).2.2
  · intro df out columns h
    exact (enforce_integer_columns_spec columns df out h).2.2.1
  · intro df out column ascending hwf h
    unfold sort_by_column at h
    cases hf : findCol df column with
    | none => rw [hf] at h; cases h
    | some j =>
      rw [hf] at h
      cases h
      simp only [List.length_map, sortBy_length, List.length_zip]
      rw [hwf.2]
      omega
  · intro df out column h
    unfold filter_rows_with_numeric_column at h
    cases hf : findCol df column with
    | none => rw [hf] at h; cases h
    | some j =>
      rw [hf] at h
      cases h
      exact filter_zip_length_le _ _ _
  · intro df out columns h
    unfold drop_nulls at h
    cases hf : columns.mapM (fun c => findCol df c) with
    | none => rw [hf] at h; cases h
    | some js =>
      rw [hf] at h
      cases h
      exact filter_zip_length_le _ _ _
  · intro df out column allowed h
    unfold filter_values at h
    cases hf : findCol df column with
    | none => rw [hf] at h; cases h
    | some j =>
      rw [hf] at h
      cases h
      exact filter_zip_length_le _ _ _

/-- Witness for the amended C3: the integer cast hypothesis discharged at
the concrete frame of C8, keeping both rows. -/
theorem row_count_invariants_amended_witness :
    (2 : Nat) = scenarioCastFrame.rows.length := by
  exact (row_count_invariants_amended.2.2.1 scenarioCastFrame
    ⟨["company_size", "installations"], [0, 1],
     [[Cell.str "MICRO", Cell.num 5], [Cell.str "x", Cell.num 0]]⟩
    "installations" (by decide)).symm.trans rfl

/-! ## Commutation of the two structural drops -/

theorem rowIsEmpty_getCell {r : List Cell} (h : rowIsEmpty r = true) (j : Nat) :
    (getCell r j).isNa = true := by
  unfold rowIsEmpty at h
  rw [List.all_eq_true] at h
  unfold getCell
  by_cases hj : j < r.length
  · rw [List.getD_eq_getElem _ _ hj]
    exact h _ (List.getElem_mem hj)
  · rw [List.getD_eq_default _ _ (by omega)]
    rfl

theorem colIsEmpty_filter_rows (rows : List (List Cell)) (j : Nat) :
    colIsEmpty (rows.filter (fun r => !rowIsEmpty r)) j = colIsEmpty rows j := by
  unfold colIsEmpty
  rcases hall : rows.all (fun r => (getCell r j).isNa) with _ | _
  · -- some row has a value at j; it survives the filter
    rw [List.all_eq_false] at hall
    obtain ⟨r, hr, hna⟩ := hall
    rw [List.all_eq_false]
    refine ⟨r, ?_, hna⟩
    rw [List.mem_filter]
    refine ⟨hr, ?_⟩
    simp only [Bool.not_eq_true']
    rcases he : rowIsEmpty r with _ | _
    · rfl
    · exact absurd (rowIsEmpty_getCell he j) hna
  · rw [List.all_eq_true] at hall
    rw [List.all_eq_true]
    intro r hr
    exact hall r (List.mem_filter.mp hr).1

theorem mem_maskKeep {m : List Bool} {l : List α} {x : α} (h : x ∈ maskKeep m l) : x ∈ l := by
  unfold maskKeep at h
  simp only [List.mem_map, List.mem_filter] at h
  obtain ⟨p, ⟨hp, _⟩, rfl⟩ := h
  exact (List.of_mem_zip hp).2

theorem getElem_mem_maskKeep (m : List Bool) (l : List α) (i : Nat) (him : i < m.length)
    (hil : i < l.length) (hm : m[i] = true) : l[i] ∈ maskKeep m l := by
  unfold maskKeep
  rw [List.mem_map]
  refine ⟨(m[i], l[i]), ?_, rfl⟩
  rw [List.mem_filter]
  constructor
  · rw [List.mem_iff_getElem]
    refine ⟨i, ?_, ?_⟩
    · rw [List.length_zip]; omega
    · rw [List.getElem_zip]
  · exact hm

theorem rowIsEmpty_maskKeep (rows : List (List Cell)) (r : List Cell) (hr : r ∈ rows)
    (n : Nat) (hlen : r.length = n) :
    rowIsEmpty (maskKeep ((List.range n).map (fun j => !colIsEmpty rows j)) r) =
      rowIsEmpty r := by
  rcases he : rowIsEmpty r with _ | _
  · -- r has a value; show the masked row keeps one
    unfold rowIsEmpty at he
    rw [List.all_eq_false] at he
    obtain ⟨x, hx, hxna⟩ := he
    rw [List.mem_iff_getElem] at hx
    obtain ⟨i, hi, rfl⟩ := hx
    unfold rowIsEmpty
    rw [List.all_eq_false]
    refine ⟨r[i], ?_, hxna⟩
    refine getElem_mem_maskKeep _ _ i ?_ hi ?_
    · rw [List.length_map, List.length_range]; omega
    · rw [List.getElem_map, List.getElem_range]
      rcases hc : colIsEmpty rows i with _ | _
      · rfl
      · -- column i empty would make r[i] missing, contradiction
        exfalso
        unfold colIsEmpty at hc
        rw [List.all_eq_true] at hc
        have := hc r hr
        unfold getCell at this
        rw [List.getD_eq_getElem _ _ hi] at this
        exact absurd this (by simpa using hxna)
  · -- r entirely missing: so is any selection from it
    unfold rowIsEmpty
    rw [List.all_eq_true]
    intro x hx
    have hxr := mem_maskKeep hx
    unfold rowIsEmpty at he
    rw [List.all_eq_true] at he
    exact he x hxr

theorem zip_filter_snd_map_snd {α β : Type _} (q : β → Bool) :
    ∀ (a : List α) (b : List β), a.length = b.length →
      (((a.zip b).filter (fun p => q p.2)).map (fun p => p.2)) = b.filter q
  | [], [], _ => rfl
  | [], _ :: _, h => by simp at h
  | _ :: _, [], h => by simp at h
  | a :: as, b :: bs, h => by
    have hlen : as.length = bs.length := by simpa using h
    by_cases hq : q b = true <;>
      simp [List.filter_cons, hq, zip_filter_snd_map_snd q as bs hlen]

theorem rowIsEmpty_maskKeep_df (df : DataFrame) (r : List Cell) (hr : r ∈ df.rows)
    (hlen : r.length = df.cols.length) :
    rowIsEmpty (maskKeep (emptyColMask df) r) = rowIsEmpty r := by
  unfold emptyColMask
  exact rowIsEmpty_maskKeep df.rows r hr df.cols.length hlen

/-- C10: dropping all-empty columns and dropping all-empty rows commute
on every well-formed frame: removing an entirely missing column cannot
change which rows are entirely missing, and removing an entirely missing
row cannot change which columns are entirely missing. -/
theorem drop_empty_rows_columns_commute (df : DataFrame) (hwf : wellFormed df) :
    drop_completely_empty_rows (drop_completely_empty_columns df) =
      drop_completely_empty_columns (drop_completely_empty_rows df) := by
  obtain ⟨hrect, hidx⟩ := hwf
  have stepA : (nonEmptyRowPairs df).map (fun p => p.2) =
      df.rows.filter (fun r => !rowIsEmpty r) :=
    zip_filter_snd_map_snd (fun r => !rowIsEmpty r) df.index df.rows hidx
  have stepB : emptyColMask (drop_completely_empty_rows df) = emptyColMask df := by
    unfold emptyColMask drop_completely_empty_rows
    dsimp only
    rw [stepA]
    exact List.map_congr_left (fun j _ => by rw [colIsEmpty_filter_rows])
  have pairs1eq : nonEmptyRowPairs (drop_completely_empty_columns df) =
      (nonEmptyRowPairs df).map (Prod.map id (maskKeep (emptyColMask df))) := by
    unfold nonEmptyRowPairs drop_completely_empty_columns
    dsimp only
    rw [List.zip_map_right, List.filter_map]
    congr 1
    refine List.filter_congr ?_
    intro q hq
    show (!rowIsEmpty (maskKeep (emptyColMask df) q.2)) = (!rowIsEmpty q.2)
    have hq2 : q.2 ∈ df.rows := (List.of_mem_zip hq).2
    rw [rowIsEmpty_maskKeep_df df q.2 hq2 (hrect q.2 hq2)]
  have lhs_eq : drop_completely_empty_rows (drop_completely_empty_columns df) =
      ⟨maskKeep (emptyColMask df) df.cols,
       (nonEmptyRowPairs df).map (fun p => p.1),
       (nonEmptyRowPairs df).map (fun p => maskKeep (emptyColMask df) p.2)⟩ := by
    show DataFrame.mk ((drop_completely_empty_columns df).cols)
        ((nonEmptyRowPairs (drop_completely_empty_columns df)).map (fun p => p.1))
        ((nonEmptyRowPairs (drop_completely_empty_columns df)).map (fun p => p.2)) = _
    rw [pairs1eq, List.map_map, List.map_map]
    rfl
  have rhs_eq : drop_completely_empty_columns (drop_completely_empty_rows df) =
      ⟨maskKeep (emptyColMask df) df.cols,
       (nonEmptyRowPairs df).map (fun p => p.1),
       (nonEmptyRowPairs df).map (fun p => maskKeep (emptyColMask df) p.2)⟩ := by
    show DataFrame.mk
        (maskKeep (emptyColMask (drop_completely_empty_rows df))
          (drop_completely_empty_rows df).cols)
        ((drop_completely_empty_rows df).index)
        (((drop_completely_empty_rows df).rows).map
          (maskKeep (emptyColMask (drop_completely_empty_rows df)))) = _
    rw [stepB]
    show DataFrame.mk (maskKeep (emptyColMask df) df.cols)
        ((nonEmptyRowPairs df).map (fun p => p.1))
        (((nonEmptyRowPairs df).map (fun p => p.2)).map (maskKeep (emptyColMask df))) = _
    rw [List.map_map]
    rfl
  exact lhs_eq.trans rhs_eq.symm

/-- Witness for C10 at a concrete well-formed frame. -/
theorem drop_empty_rows_columns_commute_witness :
    drop_completely_empty_rows (drop_completely_empty_columns scenarioNullFrame) =
      drop_completely_empty_columns (drop_completely_empty_rows scenarioNullFrame) :=
  drop_empty_rows_columns_commute scenarioNullFrame (by decide)

/-! ## The collapsing loop computes the run collapse -/

theorem collapseRuns_cons₂ (c d : Char) (rest : List Char) :
    collapseRuns (c :: d :: rest) =
      if c = '_' ∧ d = '_' then collapseRuns (d :: rest) else c :: collapseRuns (d :: rest) :=
  rfl

theorem pyReplaceDD_cons₂ (c d : Char) (rest : List Char) :
    pyReplaceDD (c :: d :: rest) =
      if c = '_' ∧ d = '_' then '_' :: pyReplaceDD rest else c :: pyReplaceDD (d :: rest) :=
  rfl

theorem hasDD_cons₂ (c d : Char) (rest : List Char) :
    hasDD (c :: d :: rest) = if c = '_' ∧ d = '_' then true else hasDD (d :: rest) :=
  rfl

theorem collapseRuns_cons_ne {c : Char} (hc : ¬ c = '_') :
    ∀ x : List Char, collapseRuns (c :: x) = c :: collapseRuns x
  | [] => rfl
  | d :: x => by
    rw [collapseRuns_cons₂, if_neg (fun h => hc h.1)]

theorem collapseRuns_underscore : ∀ x : List Char,
    collapseRuns ('_' :: x) = '_' :: collapseRuns (x.dropWhile (fun c => c == '_'))
  | [] => rfl
  | d :: x => by
    by_cases hd : d = '_'
    · subst hd
      rw [collapseRuns_cons₂, if_pos ⟨rfl, rfl⟩, collapseRuns_underscore x,
        List.dropWhile_cons]
      simp
    · rw [collapseRuns_cons₂, if_neg (fun h => hd h.2),
        List.dropWhile_cons, if_neg (by simpa using hd)]

theorem head?_collapseRuns : ∀ l : List Char, (collapseRuns l).head? = l.head?
  | [] => rfl
  | c :: x => by
    by_cases hc : c = '_'
    · subst hc
      rw [collapseRuns_underscore x]
      rfl
    · rw [collapseRuns_cons_ne hc x]
      rfl

theorem hasDD_cons_eq {c : Char} {X : List Char}
    (h : ¬ c = '_' ∨ ¬ X.head? = some '_') : hasDD (c :: X) = hasDD X := by
  cases X with
  | nil => rfl
  | cons x1 X =>
    have hcond : ¬ (c = '_' ∧ x1 = '_') := by
      rintro ⟨rfl, rfl⟩
      rcases h with h | h
      · exact h rfl
      · exact h rfl
    rw [hasDD_cons₂, if_neg hcond]

theorem dropWhile_head?_false {p : Char → Bool} {l : List Char} {a : Char}
    (h : l.head? = some a) (hp : p a = false) : l.dropWhile p = l := by
  cases l with
  | nil => rfl
  | cons b t =>
    cases h
    rw [List.dropWhile_cons, if_neg (by simp [hp])]

theorem pyReplaceDD_cons_ne {c : Char} (hc : ¬ c = '_') :
    ∀ r : List Char, pyReplaceDD (c :: r) = c :: pyReplaceDD r
  | [] => rfl
  | d :: r => by
    rw [pyReplaceDD_cons₂, if_neg (fun h => hc h.1)]

theorem head?_pyReplaceDD : ∀ l : List Char, (pyReplaceDD l).head? = l.head?
  | [] => rfl
  | [c] => rfl
  | c :: d :: rest => by
    rw [pyReplaceDD_cons₂]
    split
    · next h => rw [h.1]; rfl
    · rfl

theorem hasDD_collapseRuns : ∀ l : List Char, hasDD (collapseRuns l) = false
  | [] => rfl
  | [c] => rfl
  | c :: d :: rest => by
    by_cases hcd : c = '_' ∧ d = '_'
    · rw [collapseRuns_cons₂, if_pos hcd]
      exact hasDD_collapseRuns (d :: rest)
    · rw [collapseRuns_cons₂, if_neg hcd]
      rw [hasDD_cons_eq, hasDD_collapseRuns (d :: rest)]
      by_cases hc : c = '_'
      · refine Or.inr ?_
        rw [head?_collapseRuns]
        intro hhd
        exact hcd ⟨hc, by cases hhd; rfl⟩
      · exact Or.inl hc

theorem collapseRuns_of_not_hasDD : ∀ l : List Char, hasDD l = false → collapseRuns l = l
  | [], _ => rfl
  | [c], _ => rfl
  | c :: d :: rest, h => by
    rw [hasDD_cons₂] at h
    by_cases hcd : c = '_' ∧ d = '_'
    · rw [if_pos hcd] at h; cases h
    · rw [if_neg hcd] at h
      rw [collapseRuns_cons₂, if_neg hcd, collapseRuns_of_not_hasDD (d :: rest) h]

theorem collapseRuns_pyReplaceDD :
    ∀ (n : Nat) (l : List Char), l.length ≤ n →
      collapseRuns (pyReplaceDD l) = collapseRuns l ∧
      collapseRuns ((pyReplaceDD l).dropWhile (fun c => c == '_')) =
        collapseRuns (l.dropWhile (fun c => c == '_')) := by
  intro n
  induction n with
  | zero =>
    intro l hl
    have h0 : l = [] := List.eq_nil_of_length_eq_zero (Nat.le_zero.mp hl)
    subst h0
    exact ⟨rfl, rfl⟩
  | succ n ih =>
    intro l hl
    have hA : collapseRuns (pyReplaceDD l) = collapseRuns l := by
      match l, hl with
      | [], _ => rfl
      | [c], _ => rfl
      | c :: d :: rest, hl =>
        by_cases hcd : c = '_' ∧ d = '_'
        · obtain ⟨rfl, rfl⟩ := hcd
          rw [pyReplaceDD_cons₂, if_pos ⟨rfl, rfl⟩]
          rw [collapseRuns_underscore, collapseRuns_cons₂, if_pos ⟨rfl, rfl⟩,
            collapseRuns_underscore]
          have hrest : rest.length ≤ n := by
            simp only [List.length_cons] at hl; omega
          rw [(ih rest hrest).2]
        · rw [pyReplaceDD_cons₂, if_neg hcd]
          by_cases hc : c = '_'
          · subst hc
            have hd : ¬ d = '_' := fun hd => hcd ⟨rfl, hd⟩
            rw [collapseRuns_underscore, collapseRuns_underscore]
            rw [dropWhile_head?_false (head?_pyReplaceDD (d :: rest)) (by simpa using hd)]
            rw [List.dropWhile_cons, if_neg (by simpa using hd)]
            have hdr : (d :: rest).length ≤ n := by
              simp only [List.length_cons] at hl ⊢; omega
            rw [(ih (d :: rest) hdr).1]
          · rw [collapseRuns_cons_ne hc, collapseRuns_cons_ne hc]
            have hdr : (d :: rest).length ≤ n := by
              simp only [List.length_cons] at hl ⊢; omega
            rw [(ih (d :: rest) hdr).1]
    refine ⟨hA, ?_⟩
    match l, hl, hA with
    | [], _, _ => rfl
    | c :: r, hl, hA =>
      by_cases hc : c = '_'
      · subst hc
        match r, hl with
        | [], _ => rfl
        | d :: r', hl =>
          by_cases hd : d = '_'
          · subst hd
            rw [pyReplaceDD_cons₂, if_pos ⟨rfl, rfl⟩]
            rw [show ('_' :: pyReplaceDD r').dropWhile (fun c => c == '_') =
                (pyReplaceDD r').dropWhile (fun c => c == '_') from by
              rw [List.dropWhile_cons]; simp]
            rw [show ('_' :: '_' :: r').dropWhile (fun c => c == '_') =
                r'.dropWhile (fun c => c == '_') from by
              rw [List.dropWhile_cons, List.dropWhile_cons]; simp]
            have hr' : r'.length ≤ n := by
              simp only [List.length_cons] at hl; omega
            exact (ih r' hr').2
          · rw [pyReplaceDD_cons₂, if_neg (fun h => hd h.2)]
            rw [show ('_' :: pyReplaceDD (d :: r')).dropWhile (fun c => c == '_') =
                (pyReplaceDD (d :: r')).dropWhile (fun c => c == '_') from by
              rw [List.dropWhile_cons]; simp]
            rw [show ('_' :: d :: r').dropWhile (fun c => c == '_') =
                d :: r' from by
              rw [List.dropWhile_cons, List.dropWhile_cons]
              simp [hd]]
            rw [show (pyReplaceDD (d :: r')).dropWhile (fun c => c == '_') =
                pyReplaceDD (d :: r') from
              dropWhile_head?_false (head?_pyReplaceDD (d :: r')) (by simpa using hd)]
            have hdr : (d :: r').length ≤ n := by
              simp only [List.length_cons] at hl ⊢; omega
            exact (ih (d :: r') hdr).1
      · rw [@dropWhile_head?_false _ (c :: r) c rfl (by simpa using hc)]
        rw [dropWhile_head?_false (head?_pyReplaceDD (c :: r)) (by simpa using hc)]
        exact hA

theorem collapseLoop_eq_collapseRuns : ∀ (n : Nat) (l : List Char), l.length ≤ n →
    collapseLoop l = collapseRuns l := by
  intro n
  induction n with
  | zero =>
    intro l hl
    have h0 : l = [] := List.eq_nil_of_length_eq_zero (Nat.le_zero.mp hl)
    subst h0
    rfl
  | succ n ih =>
    intro l hl
    rw [collapseLoop_eq l]
    split
    · next h =>
      rw [ih (pyReplaceDD l) (by have := pyReplaceDD_length_lt l h; omega)]
      exact (collapseRuns_pyReplaceDD l.length l (le_refl _)).1
    · next h =>
      rw [collapseRuns_of_not_hasDD l (by simpa using h)]

/-! ## Character-level facts about the normalizer -/

theorem lookup_mem : ∀ {l : List (Char × Char)} {c d : Char},
    l.lookup c = some d → (c, d) ∈ l
  | [], _, _, h => by cases h
  | (k, b) :: l, c, d, h => by
    by_cases hck : (c == k) = true
    · have hc : c = k := by simpa using hck
      subst hc
      rw [show List.lookup c ((c, b) :: l) = some b from by simp [List.lookup]] at h
      cases h
      exact List.mem_cons_self _ _
    · rw [show List.lookup c ((k, b) :: l) = List.lookup c l from by
        simp [List.lookup, hck]] at h
      exact List.mem_cons_of_mem _ (lookup_mem h)

/-- The per-character composite of the four rewriting stages of
`to_snake`: lowercase, space to underscore, hyphen to underscore, accent
fold. -/
def stageMapChar (c : Char) : Char :=
  foldAccentChar (replCh '-' '_' (replCh ' ' '_' (toLowerPy c)))

/-- A character that every stage of `to_snake` leaves alone and that
`strip()` does not remove. -/
def goodChar (d : Char) : Bool :=
  (toLowerPy d == d) && !(d == ' ') && !(d == '-') && (foldAccentChar d == d) &&
    !(pyIsSpace d)

theorem lowerTable_image_good :
    ∀ p ∈ lowerTable,
      goodChar (foldAccentChar (replCh '-' '_' (replCh ' ' '_' p.2))) = true := by
  decide

theorem foldTable_image_good : ∀ p ∈ foldTable, goodChar p.2 = true := by decide

theorem stageMapChar_good (c : Char) (hc : pyIsSpace c = true → c = ' ') :
    goodChar (stageMapChar c) = true := by
  unfold stageMapChar
  cases hl : lowerTable.lookup c with
  | some d =>
    have ht : toLowerPy c = d := by unfold toLowerPy; rw [hl]; rfl
    rw [ht]
    exact lowerTable_image_good (c, d) (lookup_mem hl)
  | none =>
    have ht : toLowerPy c = c := by unfold toLowerPy; rw [hl]; rfl
    rw [ht]
    by_cases hsp : c = ' '
    · subst hsp; decide
    · by_cases hhy : c = '-'
      · subst hhy; decide
      · rw [show replCh ' ' '_' c = c from by unfold replCh; rw [if_neg hsp]]
        rw [show replCh '-' '_' c = c from by unfold replCh; rw [if_neg hhy]]
        cases hf : foldTable.lookup c with
        | some e =>
          have ht2 : foldAccentChar c = e := by unfold foldAccentChar; rw [hf]; rfl
          rw [ht2]
          exact foldTable_image_good (c, e) (lookup_mem hf)
        | none =>
          have ht2 : foldAccentChar c = c := by unfold foldAccentChar; rw [hf]; rfl
          rw [ht2]
          have hns : pyIsSpace c = false := by
            rcases hps : pyIsSpace c with _ | _
            · rfl
            · exact absurd (hc hps) hsp
          unfold goodChar
          rw [ht, ht2, hns]
          simp [hsp, hhy]

theorem mem_dropWhile_sub {p : Char → Bool} {x : Char} :
    ∀ {l : List Char}, x ∈ l.dropWhile p → x ∈ l := by
  intro l
  induction l with
  | nil => exact fun h => h
  | cons a l ih =>
    intro h
    rw [List.dropWhile_cons] at h
    by_cases ha : p a = true
    · rw [if_pos ha] at h
      exact List.mem_cons_of_mem _ (ih h)
    · rw [if_neg ha] at h
      exact h

theorem mem_pyStripChars {p : Char → Bool} {l : List Char} {x : Char}
    (h : x ∈ pyStripChars p l) : x ∈ l := by
  unfold pyStripChars at h
  rw [List.mem_reverse] at h
  have h2 := mem_dropWhile_sub h
  rw [List.mem_reverse] at h2
  exact mem_dropWhile_sub h2

theorem mem_collapseRuns_sub : ∀ {l : List Char} {x : Char}, x ∈ collapseRuns l → x ∈ l
  | [], _, h => h
  | [_], _, h => h
  | c :: d :: rest, x, h => by
    rw [collapseRuns_cons₂] at h
    by_cases hcd : c = '_' ∧ d = '_'
    · rw [if_pos hcd] at h
      exact List.mem_cons_of_mem _ (mem_collapseRuns_sub h)
    · rw [if_neg hcd] at h
      rcases List.mem_cons.mp h with rfl | h
      · exact List.mem_cons_self _ _
      · exact List.mem_cons_of_mem _ (mem_collapseRuns_sub h)

theorem to_snakeChars_chars_good (l : List Char)
    (h : ∀ c ∈ l, pyIsSpace c = true → c = ' ') :
    ∀ x ∈ to_snakeChars l, goodChar x = true := by
  intro x hx
  unfold to_snakeChars at hx
  have hx1 := mem_pyStripChars hx
  rw [collapseLoop_eq_collapseRuns _ _ (le_refl _)] at hx1
  have hx2 := mem_collapseRuns_sub hx1
  rcases List.mem_map.mp hx2 with ⟨y3, hy3, rfl⟩
  rcases List.mem_map.mp hy3 with ⟨y2, hy2, rfl⟩
  rcases List.mem_map.mp hy2 with ⟨y1, hy1, rfl⟩
  rcases List.mem_map.mp hy1 with ⟨c0, hc0, rfl⟩
  exact stageMapChar_good c0 (h c0 (mem_pyStripChars hc0))

theorem map_id_of_fix {f : α → α} : ∀ {l : List α}, (∀ x ∈ l, f x = x) → l.map f = l
  | [], _ => rfl
  | a :: l, h => by
    rw [List.map_cons, h a (List.mem_cons_self a l),
      map_id_of_fix (fun x hx => h x (List.mem_cons_of_mem a hx))]

theorem dropWhile_of_no_match {p : Char → Bool} :
    ∀ {l : List Char}, (∀ c ∈ l, p c = false) → l.dropWhile p = l
  | [], _ => rfl
  | a :: l, h => by
    rw [List.dropWhile_cons, if_neg (by simp [h a (List.mem_cons_self a l)])]

theorem pyStripChars_of_no_match {p : Char → Bool} {l : List Char}
    (h : ∀ c ∈ l, p c = false) : pyStripChars p l = l := by
  unfold pyStripChars
  rw [dropWhile_of_no_match h]
  rw [dropWhile_of_no_match (fun c hc => h c (List.mem_reverse.mp hc))]
  exact List.reverse_reverse l

theorem hasDD_of_decomp : ∀ (x y : List Char), hasDD (x ++ '_' :: '_' :: y) = true
  | [], y => by
    rw [List.nil_append, hasDD_cons₂, if_pos ⟨rfl, rfl⟩]
  | c :: x, y => by
    have hM := hasDD_of_decomp x y
    rw [List.cons_append]
    cases hMs : x ++ '_' :: '_' :: y with
    | nil => rw [hMs] at hM; cases hM
    | cons m ms =>
      rw [hMs] at hM
      rw [hasDD_cons₂, hM]
      split <;> rfl

theorem decomp_of_hasDD : ∀ l : List Char, hasDD l = true → ∃ x y, l = x ++ '_' :: '_' :: y
  | [], h => by cases h
  | [_], h => by cases h
  | c :: d :: rest, h => by
    rw [hasDD_cons₂] at h
    by_cases hcd : c = '_' ∧ d = '_'
    · exact ⟨[], rest, by rw [hcd.1, hcd.2]; rfl⟩
    · rw [if_neg hcd] at h
      obtain ⟨x, y, hxy⟩ := decomp_of_hasDD (d :: rest) h
      exact ⟨c :: x, y, by rw [List.cons_append, ← hxy]⟩

theorem pyStripChars_infix (p : Char → Bool) (l : List Char) :
    ∃ a b, l = a ++ pyStripChars p l ++ b := by
  refine ⟨l.takeWhile p, ((l.dropWhile p).reverse.takeWhile p).reverse, ?_⟩
  unfold pyStripChars
  rw [List.append_assoc]
  conv_lhs => rw [← @List.takeWhile_append_dropWhile _ p l]
  congr 1
  conv_lhs => rw [← List.reverse_reverse (l.dropWhile p),
    ← @List.takeWhile_append_dropWhile _ p (l.dropWhile p).reverse]
  rw [List.reverse_append]

theorem hasDD_pyStripChars {p : Char → Bool} {w : List Char} (h : hasDD w = false) :
    hasDD (pyStripChars p w) = false := by
  rcases hdd : hasDD (pyStripChars p w) with _ | _
  · rfl
  · exfalso
    obtain ⟨x, y, hxy⟩ := decomp_of_hasDD _ hdd
    obtain ⟨a, b, hab⟩ := pyStripChars_infix p w
    rw [hxy] at hab
    have hw : hasDD w = true := by
      rw [hab]
      rw [show a ++ (x ++ '_' :: '_' :: y) ++ b =
          (a ++ x) ++ '_' :: '_' :: (y ++ b) from by simp [List.append_assoc]]
      exact hasDD_of_decomp (a ++ x) (y ++ b)
    rw [hw] at h
    cases h

theorem dropWhile_idem (p : Char → Bool) :
    ∀ l : List Char, (l.dropWhile p).dropWhile p = l.dropWhile p
  | [] => rfl
  | a :: l => by
    rw [List.dropWhile_cons]
    by_cases ha : p a = true
    · rw [if_pos ha]
      exact dropWhile_idem p l
    · rw [if_neg ha, List.dropWhile_cons, if_neg ha]

theorem dropWhile_head_false {p : Char → Bool} :
    ∀ {l : List Char} {a : Char} {t : List Char}, l.dropWhile p = a :: t → p a = false
  | [], _, _, h => by cases h
  | c :: l, a, t, h => by
    rw [List.dropWhile_cons] at h
    by_cases hc : p c = true
    · rw [if_pos hc] at h
      exact dropWhile_head_false h
    · rw [if_neg hc] at h
      cases h
      simpa using hc

theorem pyStripChars_idem (p : Char → Bool) (l : List Char) :
    pyStripChars p (pyStripChars p l) = pyStripChars p l := by
  cases hB : pyStripChars p l with
  | nil => rfl
  | cons b t =>
    have hBrev : (l.dropWhile p).reverse.dropWhile p = (b :: t).reverse := by
      have hrev := congrArg List.reverse hB
      unfold pyStripChars at hrev
      rw [List.reverse_reverse] at hrev
      exact hrev
    have h1 : (b :: t).reverse.dropWhile p = (b :: t).reverse := by
      rw [← hBrev]
      exact dropWhile_idem p _
    have hA : l.dropWhile p =
        (b :: t) ++ ((l.dropWhile p).reverse.takeWhile p).reverse := by
      conv_lhs => rw [← List.reverse_reverse (l.dropWhile p),
        ← @List.takeWhile_append_dropWhile _ p (l.dropWhile p).reverse]
      rw [List.reverse_append, hBrev, List.reverse_reverse]
    have hpb : p b = false :=
      dropWhile_head_false (by rw [hA]; rfl)
    have h2 : (b :: t).dropWhile p = b :: t := by
      rw [List.dropWhile_cons, if_neg (by simp [hpb])]
    show (((b :: t).dropWhile p).reverse.dropWhile p).reverse = b :: t
    rw [h2, h1, List.reverse_reverse]

/-- The normalization algorithm exactly as §4.1 of the spec words it:
trim surrounding whitespace, then lowercase, then replace each space and
hyphen with an underscore, then fold the five accented vowels and `ñ` to
ASCII, then collapse every run of two or more underscores into one, then
strip leading and trailing underscores; every other character passes
through unchanged. -/
def specNormalizeChars (l : List Char) : List Char :=
  pyStripChars (fun c => c == '_')
    (collapseRuns (((((pyStripChars pyIsSpace l).map toLowerPy).map
      (replCh ' ' '_')).map (replCh '-' '_')).map foldAccentChar))

/-- The spec's normalization on Lean strings. -/
def specNormalize (s : String) : String := String.mk (specNormalizeChars s.data)

/-- C5: the column-name normalizer computes exactly the spec's
composition of trimming, lowercasing, space/hyphen replacement, accent
folding, underscore-run collapsing and underscore stripping — the
source's replace-loop collapses runs exactly as the spec describes — and
the header `"Año Adhesión Establecimiento"` normalizes to
`"ano_adhesion_establecimiento"`. -/
theorem to_snake_is_spec_composition :
    (∀ s : String, to_snake s = specNormalize s) ∧
    to_snake "Año Adhesión Establecimiento" = "ano_adhesion_establecimiento" := by
  constructor
  · intro s
    refine congrArg String.mk ?_
    show pyStripChars (fun c => c == '_')
        (collapseLoop (((((pyStripChars pyIsSpace s.data).map toLowerPy).map
          (replCh ' ' '_')).map (replCh '-' '_')).map foldAccentChar)) =
      pyStripChars (fun c => c == '_')
        (collapseRuns (((((pyStripChars pyIsSpace s.data).map toLowerPy).map
          (replCh ' ' '_')).map (replCh '-' '_')).map foldAccentChar))
    rw [collapseLoop_eq_collapseRuns _ _ (le_refl _)]
  · decide

/-- The character-list normalizer is idempotent when the input's
whitespace is only the plain space: every character of the first pass's
output is then fixed by every stage of a second pass. -/
theorem to_snakeChars_idem (l : List Char)
    (h : ∀ c ∈ l, pyIsSpace c = true → c = ' ') :
    to_snakeChars (to_snakeChars l) = to_snakeChars l := by
  have hg := to_snakeChars_chars_good l h
  have hgood : ∀ x ∈ to_snakeChars l,
      toLowerPy x = x ∧ ¬ x = ' ' ∧ ¬ x = '-' ∧ foldAccentChar x = x ∧
        pyIsSpace x = false := by
    intro x hx
    have hgx := hg x hx
    unfold goodChar at hgx
    simp only [Bool.and_eq_true, beq_iff_eq, Bool.not_eq_true',
      beq_eq_false_iff_ne, ne_eq] at hgx
    exact ⟨hgx.1.1.1.1, hgx.1.1.1.2, hgx.1.1.2, hgx.1.2, hgx.2⟩
  have e1 : pyStripChars pyIsSpace (to_snakeChars l) = to_snakeChars l :=
    pyStripChars_of_no_match (fun c hc => (hgood c hc).2.2.2.2)
  have e2 : (to_snakeChars l).map toLowerPy = to_snakeChars l :=
    map_id_of_fix (fun x hx => (hgood x hx).1)
  have e3 : (to_snakeChars l).map (replCh ' ' '_') = to_snakeChars l :=
    map_id_of_fix (fun x hx => by unfold replCh; rw [if_neg (hgood x hx).2.1])
  have e4 : (to_snakeChars l).map (replCh '-' '_') = to_snakeChars l :=
    map_id_of_fix (fun x hx => by unfold replCh; rw [if_neg (hgood x hx).2.2.1])
  have e5 : (to_snakeChars l).map foldAccentChar = to_snakeChars l :=
    map_id_of_fix (fun x hx => (hgood x hx).2.2.2.1)
  have e6 : hasDD (to_snakeChars l) = false := by
    show hasDD (pyStripChars (fun c => c == '_')
      (collapseLoop (((((pyStripChars pyIsSpace l).map toLowerPy).map
        (replCh ' ' '_')).map (replCh '-' '_')).map foldAccentChar))) = false
    apply hasDD_pyStripChars
    rw [collapseLoop_eq_collapseRuns _ _ (le_refl _)]
    exact hasDD_collapseRuns _
  have e7 : collapseLoop (to_snakeChars l) = to_snakeChars l := by
    rw [collapseLoop_eq (to_snakeChars l), e6]
    simp
  have e8 : pyStripChars (fun c => c == '_') (to_snakeChars l) = to_snakeChars l := by
    show pyStripChars (fun c => c == '_') (pyStripChars (fun c => c == '_')
      (collapseLoop (((((pyStripChars pyIsSpace l).map toLowerPy).map
        (replCh ' ' '_')).map (replCh '-' '_')).map foldAccentChar))) = to_snakeChars l
    exact pyStripChars_idem _ _
  show pyStripChars (fun c => c == '_')
      (collapseLoop (((((pyStripChars pyIsSpace (to_snakeChars l)).map toLowerPy).map
        (replCh ' ' '_')).map (replCh '-' '_')).map foldAccentChar)) = to_snakeChars l
  rw [e1, e2, e3, e4, e5, e7, e8]

/-- C4 counterexample: the normalizer is not idempotent.  In `"a\t_"`
the final `strip("_")` exposes a tab at the end of the first pass's
output `"a\t"`, and only the second pass's `strip()` removes it, giving
`"a"`. -/
theorem to_snake_not_idempotent :
    ¬ to_snake (to_snake "a\t_") = to_snake "a\t_" := by decide

/-- C4 as amended: the normalizer is idempotent on every input string
whose whitespace characters are all the plain space — in particular on
every header of the datasets — while a tab or newline adjacent to a
stripped underscore breaks idempotence (see the counterexample). -/
theorem to_snake_idempotent_on_space_only_whitespace (s : String)
    (h : ∀ c ∈ s.data, pyIsSpace c = true → c = ' ') :
    to_snake (to_snake s) = to_snake s := by
  unfold to_snake
  rw [show (String.mk (to_snakeChars s.data)).data = to_snakeChars s.data from rfl]
  rw [to_snakeChars_idem s.data h]

/-- Witness for the amended C4 at a concrete header. -/
theorem to_snake_idempotent_on_space_only_whitespace_witness :
    to_snake (to_snake "Año Adhesión Establecimiento") =
      to_snake "Año Adhesión Establecimiento" :=
  to_snake_idempotent_on_space_only_whitespace "Año Adhesión Establecimiento" (by decide)

/-! ## Lemmas for the yearly summary -/

theorem getCell_append_left {r s : List Cell} {j : Nat} (h : j < r.length) :
    getCell (r ++ s) j = getCell r j := by
  unfold getCell
  exact List.getD_append r s Cell.na j h

theorem getCell_append_right {r s : List Cell} {j : Nat} (h : r.length ≤ j) :
    getCell (r ++ s) j = getCell s (j - r.length) := by
  unfold getCell
  exact List.getD_append_right r s Cell.na j h

theorem getCell_modifyAt_ne (f : Cell → Cell) :
    ∀ (j' j : Nat) (r : List Cell), ¬ j = j' →
      getCell (modifyAt f j' r) j = getCell r j
  | j', _, [], _ => by cases j' <;> rfl
  | 0, 0, a :: r, h => absurd rfl h
  | 0, j + 1, a :: r, _ => by simp [modifyAt, getCell]
  | j' + 1, 0, a :: r, _ => by simp [modifyAt, getCell]
  | j' + 1, j + 1, a :: r, h => by
    simp only [modifyAt, getCell, List.getD_cons_succ]
    exact getCell_modifyAt_ne f j' j r (fun hj => h (by omega))

/-- The integer coercion is the identity on integer-valued number
cells. -/
theorem coerceCellInt_int (k : Int) :
    coerceCellInt (Cell.num (k : Rat)) = Cell.num (k : Rat) := by
  show Cell.num ((ratTruncInt (k : Rat) : Int) : Rat) = Cell.num (k : Rat)
  unfold ratTruncInt
  rw [Rat.num_intCast, Rat.den_intCast]
  norm_num

theorem filter_key_unique {f : List Cell → Cell} :
    ∀ {R : List (List Cell)}, (R.map f).Nodup → ∀ v : Cell,
      R.filter (fun r => decide (f r = v)) = [] ∨
      ∃ m ∈ R, f m = v ∧ R.filter (fun r => decide (f r = v)) = [m] := by
  intro R
  induction R with
  | nil => intro _ v; exact Or.inl rfl
  | cons r R ih =>
    intro hnd v
    rw [List.map_cons, List.nodup_cons] at hnd
    rcases hnd with ⟨hfr, hnd⟩
    rw [List.filter_cons]
    by_cases hv : f r = v
    · rw [if_pos (by simpa using hv)]
      refine Or.inr ⟨r, List.mem_cons_self _ _, hv, ?_⟩
      have hnil : R.filter (fun x => decide (f x = v)) = [] := by
        rw [List.filter_eq_nil_iff]
        intro m hm
        simp only [decide_eq_true_eq]
        intro hfm
        have : f r = f m := hv.trans hfm.symm
        rw [this] at hfr
        exact hfr (List.mem_map_of_mem f hm)
      rw [hnil]
    · rw [if_neg (by simpa using hv)]
      rcases ih hnd v with h | ⟨m, hm, hfm, hfil⟩
      · exact Or.inl h
      · exact Or.inr ⟨m, List.mem_cons_of_mem _ hm, hfm, hfil⟩

theorem flatMap_singleton_map {f : α → List β} {g : β → γ} {h : α → γ} :
    ∀ {l : List α}, (∀ a ∈ l, ∃ b, f a = [b] ∧ g b = h a) →
      (l.flatMap f).map g = l.map h
  | [], _ => rfl
  | a :: l, hyp => by
    obtain ⟨b, hb, hgb⟩ := hyp a (List.mem_cons_self a l)
    rw [List.flatMap_cons, List.map_append, hb,
      flatMap_singleton_map (fun x hx => hyp x (List.mem_cons_of_mem a hx))]
    simp [hgb]

/-- First-column cells of a list of rows. -/
def rowsYears (R : List (List Cell)) : List Cell := R.map (fun r => getCell r 0)

/-- Year cells of a frame whose key is its first column. -/
def yearCells (df : DataFrame) : List Cell := rowsYears df.rows

/-- The rows `mergeOuterOn` produces when both inputs carry the summary's
three-column layout (key in column 0): a specialization of the merge used
to state its behaviour in the proofs below. -/
def mergeRows (A C : List (List Cell)) : List (List Cell) :=
  (A.flatMap (fun lr =>
    match C.filter (fun rr => decide (getCell rr 0 = getCell lr 0)) with
    | [] => [lr ++ [Cell.na, Cell.na]]
    | ms => ms.map (fun rr => lr ++ rr.eraseIdx 0))) ++
  ((C.filter (fun rr => !(A.any (fun lr => decide (getCell lr 0 = getCell rr 0))))).map
    (fun rr => [getCell rr 0, Cell.na, Cell.na] ++ rr.eraseIdx 0))

theorem mergeOuterOn_summary (adh cert : DataFrame)
    (hca : adh.cols = ["year", "installations", "companies"])
    (hcc : cert.cols = ["year", "installations", "companies"]) :
    mergeOuterOn adh cert "year" "_adhesion" "_certification" =
      some { cols := summaryIntColumns,
             index := List.range (mergeRows adh.rows cert.rows).length,
             rows := mergeRows adh.rows cert.rows } := by
  obtain ⟨acols, aindex, arows⟩ := adh
  obtain ⟨ccols, cindex, crows⟩ := cert
  dsimp only at hca hcc
  subst hca
  subst hcc
  rfl

theorem mergeRows_years (A C : List (List Cell))
    (hA : ∀ r ∈ A, r.length = 3)
    (hndC : (rowsYears C).Nodup) :
    rowsYears (mergeRows A C) =
      rowsYears A ++ rowsYears (C.filter
        (fun rr => !(A.any (fun lr => decide (getCell lr 0 = getCell rr 0))))) := by
  unfold mergeRows rowsYears
  rw [List.map_append]
  congr 1
  · refine flatMap_singleton_map ?_
    intro lr hlr
    have hlen : lr.length = 3 := hA lr hlr
    rcases filter_key_unique hndC (getCell lr 0) with hnil | ⟨m, _, _, hfil⟩
    · rw [hnil]
      exact ⟨lr ++ [Cell.na, Cell.na], rfl, getCell_append_left (by omega)⟩
    · rw [hfil]
      exact ⟨lr ++ m.eraseIdx 0, rfl, getCell_append_left (by omega)⟩
  · rw [List.map_map]
    refine List.map_congr_left ?_
    intro rr _
    rfl

theorem mergeRows_rows_spec (A C : List (List Cell))
    (hA : ∀ r ∈ A, r.length = 3) (hC : ∀ r ∈ C, r.length = 3) :
    ∀ row ∈ mergeRows A C,
      row.length = 5 ∧
      ((getCell row 0 ∈ rowsYears A ∧
        (¬ getCell row 0 ∈ rowsYears C →
          getCell row 3 = Cell.na ∧ getCell row 4 = Cell.na)) ∨
       (getCell row 0 ∈ rowsYears C ∧ ¬ getCell row 0 ∈ rowsYears A ∧
        getCell row 1 = Cell.na ∧ getCell row 2 = Cell.na)) := by
  intro row hrow
  unfold mergeRows at hrow
  rw [List.mem_append] at hrow
  rcases hrow with hrow | hrow
  · rw [List.mem_flatMap] at hrow
    obtain ⟨lr, hlr, hrow⟩ := hrow
    have hlen : lr.length = 3 := hA lr hlr
    have hyA : getCell lr 0 ∈ rowsYears A := List.mem_map_of_mem _ hlr
    cases hfil : C.filter (fun rr => decide (getCell rr 0 = getCell lr 0)) with
    | nil =>
      rw [hfil] at hrow
      have hrw : row = lr ++ [Cell.na, Cell.na] := List.mem_singleton.mp hrow
      subst hrw
      have hy : getCell (lr ++ [Cell.na, Cell.na]) 0 = getCell lr 0 :=
        getCell_append_left (by omega)
      refine ⟨by simp [hlen], Or.inl ⟨by rw [hy]; exact hyA, ?_⟩⟩
      intro _
      constructor
      · rw [getCell_append_right (by omega), hlen]
        rfl
      · rw [getCell_append_right (by omega), hlen]
        rfl
    | cons m ms =>
      rw [hfil] at hrow
      rw [List.mem_map] at hrow
      obtain ⟨rr, hrr, hrw⟩ := hrow
      subst hrw
      have hrrfil : rr ∈ C.filter (fun rr => decide (getCell rr 0 = getCell lr 0)) := by
        rw [hfil]; exact hrr
      have hrrC : rr ∈ C := (List.mem_filter.mp hrrfil).1
      have hyear : getCell rr 0 = getCell lr 0 := by
        have := (List.mem_filter.mp hrrfil).2
        simpa using this
      have hlenr : rr.length = 3 := hC rr hrrC
      have hy : getCell (lr ++ rr.eraseIdx 0) 0 = getCell lr 0 :=
        getCell_append_left (by omega)
      refine ⟨?_, Or.inl ⟨by rw [hy]; exact hyA, ?_⟩⟩
      · rw [List.length_append, hlen, List.length_eraseIdx]
        rw [hlenr]
        norm_num
      · intro hnotC
        exfalso
        refine hnotC ?_
        rw [hy, ← hyear]
        exact List.mem_map_of_mem _ hrrC
  · rw [List.mem_map] at hrow
    obtain ⟨rr, hrr, hrw⟩ := hrow
    subst hrw
    have hrrC : rr ∈ C := (List.mem_filter.mp hrr).1
    have hno : (A.any (fun lr => decide (getCell lr 0 = getCell rr 0))) = false := by
      have := (List.mem_filter.mp hrr).2
      simpa using this
    have hlenr : rr.length = 3 := hC rr hrrC
    have hy : getCell ([getCell rr 0, Cell.na, Cell.na] ++ rr.eraseIdx 0) 0 =
        getCell rr 0 := rfl
    refine ⟨?_, Or.inr ⟨by rw [hy]; exact List.mem_map_of_mem _ hrrC, ?_, rfl, rfl⟩⟩
    · rw [List.length_append, List.length_eraseIdx]
      rw [hlenr]
      norm_num
    · rw [hy]
      intro hmem
      unfold rowsYears at hmem
      rw [List.mem_map] at hmem
      obtain ⟨lr, hlr, hylr⟩ := hmem
      rw [List.any_eq_false] at hno
      exact hno lr hlr (by simpa using hylr)

theorem summary_coercion (M : DataFrame) (hc : M.cols = summaryIntColumns) :
    List.foldlM (fun d c => cast_integer_column d c) M summaryIntColumns =
      some { cols := M.cols, index := M.index,
             rows := ((((M.rows.map (modifyAt coerceCellInt 0)).map
               (modifyAt coerceCellInt 1)).map (modifyAt coerceCellInt 2)).map
               (modifyAt coerceCellInt 3)).map (modifyAt coerceCellInt 4) } := by
  obtain ⟨cols, index, rows⟩ := M
  dsimp only at hc
  subst hc
  rfl

/-- The per-row effect of the five integer casts of the summary. -/
def coerceRow5 (r : List Cell) : List Cell :=
  modifyAt coerceCellInt 4 (modifyAt coerceCellInt 3 (modifyAt coerceCellInt 2
    (modifyAt coerceCellInt 1 (modifyAt coerceCellInt 0 r))))

theorem coerceRow5_getCell (r : List Cell) (hr : r.length = 5) :
    ∀ j, j < 5 → getCell (coerceRow5 r) j = coerceCellInt (getCell r j) := by
  intro j hj
  interval_cases j
  · unfold coerceRow5
    rw [getCell_modifyAt_ne _ 4 0 _ (by omega), getCell_modifyAt_ne _ 3 0 _ (by omega),
      getCell_modifyAt_ne _ 2 0 _ (by omega), getCell_modifyAt_ne _ 1 0 _ (by omega),
      getCell_modifyAt_self _ 0 r (by omega)]
  · unfold coerceRow5
    rw [getCell_modifyAt_ne _ 4 1 _ (by omega), getCell_modifyAt_ne _ 3 1 _ (by omega),
      getCell_modifyAt_ne _ 2 1 _ (by omega),
      getCell_modifyAt_self _ 1 _ (by simp [modifyAt_length]; omega),
      getCell_modifyAt_ne _ 0 1 _ (by omega)]
  · unfold coerceRow5
    rw [getCell_modifyAt_ne _ 4 2 _ (by omega), getCell_modifyAt_ne _ 3 2 _ (by omega),
      getCell_modifyAt_self _ 2 _ (by simp [modifyAt_length]; omega),
      getCell_modifyAt_ne _ 1 2 _ (by omega), getCell_modifyAt_ne _ 0 2 _ (by omega)]
  · unfold coerceRow5
    rw [getCell_modifyAt_ne _ 4 3 _ (by omega),
      getCell_modifyAt_self _ 3 _ (by simp [modifyAt_length]; omega),
      getCell_modifyAt_ne _ 2 3 _ (by omega), getCell_modifyAt_ne _ 1 3 _ (by omega),
      getCell_modifyAt_ne _ 0 3 _ (by omega)]
  · unfold coerceRow5
    rw [getCell_modifyAt_self _ 4 _ (by simp [modifyAt_length]; omega),
      getCell_modifyAt_ne _ 3 4 _ (by omega), getCell_modifyAt_ne _ 2 4 _ (by omega),
      getCell_modifyAt_ne _ 1 4 _ (by omega), getCell_modifyAt_ne _ 0 4 _ (by omega)]

/-! ## Order lemmas for the sort step -/

theorem mem_insertBy {le : α → α → Bool} {a x : α} :
    ∀ {l : List α}, x ∈ insertBy le a l → x = a ∨ x ∈ l
  | [], h => Or.inl (List.mem_singleton.mp h)
  | b :: l, h => by
    unfold insertBy at h
    split at h
    · rcases List.mem_cons.mp h with rfl | h
      · exact Or.inl rfl
      · exact Or.inr h
    · rcases List.mem_cons.mp h with rfl | h
      · exact Or.inr (List.mem_cons_self _ _)
      · rcases mem_insertBy h with rfl | h
        · exact Or.inl rfl
        · exact Or.inr (List.mem_cons_of_mem _ h)

theorem pairwise_insertBy_on {le : α → α → Bool} {P : α → Prop}
    (htot : ∀ a b, P a → P b → le a b = true ∨ le b a = true)
    (htrans : ∀ a b c, P a → P b → P c →
      le a b = true → le b c = true → le a c = true) :
    ∀ {l : List α} {a : α}, P a → (∀ x ∈ l, P x) →
      l.Pairwise (fun x y => le x y = true) →
      (insertBy le a l).Pairwise (fun x y => le x y = true)
  | [], a, _, _, _ => by simp [insertBy]
  | b :: l, a, ha, hP, hp => by
    unfold insertBy
    split
    · next hab =>
      rw [List.pairwise_cons]
      refine ⟨?_, hp⟩
      intro x hx
      rcases List.mem_cons.mp hx with rfl | hx
      · exact hab
      · have hbx : le b x = true := (List.pairwise_cons.mp hp).1 x hx
        exact htrans a b x ha (hP b (List.mem_cons_self _ _))
          (hP x (List.mem_cons_of_mem _ hx)) hab hbx
    · next hab =>
      rw [List.pairwise_cons]
      constructor
      · intro x hx
        rcases mem_insertBy hx with rfl | hx
        · rcases htot x b ha (hP b (List.mem_cons_self _ _)) with h | h
          · exact absurd h hab
          · exact h
        · exact (List.pairwise_cons.mp hp).1 x hx
      · exact pairwise_insertBy_on htot htrans ha
          (fun x hx => hP x (List.mem_cons_of_mem _ hx)) (List.pairwise_cons.mp hp).2

theorem pairwise_sortBy_on {le : α → α → Bool} {P : α → Prop}
    (htot : ∀ a b, P a → P b → le a b = true ∨ le b a = true)
    (htrans : ∀ a b c, P a → P b → P c →
      le a b = true → le b c = true → le a c = true) :
    ∀ {l : List α}, (∀ x ∈ l, P x) →
      (sortBy le l).Pairwise (fun x y => le x y = true)
  | [], _ => List.Pairwise.nil
  | a :: l, hP => by
    show (insertBy le a (sortBy le l)).Pairwise (fun x y => le x y = true)
    refine pairwise_insertBy_on htot htrans (hP a (List.mem_cons_self _ _)) ?_ ?_
    · intro x hx
      exact hP x (List.mem_cons_of_mem _ ((sortBy_perm le l).mem_iff.mp hx))
    · exact pairwise_sortBy_on htot htrans (fun x hx => hP x (List.mem_cons_of_mem _ hx))

/-- Row comparison of the summary sort: by the year in column 0. -/
def leYear (p q : Nat × List Cell) : Bool := cellLe (getCell p.2 0) (getCell q.2 0)

theorem summary_core (A C : List (List Cell))
    (hA : ∀ r ∈ A, r.length = 3) (hC2 : ∀ r ∈ C, r.length = 3)
    (hiA : ∀ r ∈ A, ∃ k : Int, getCell r 0 = Cell.num (k : Rat))
    (hiC : ∀ r ∈ C, ∃ k : Int, getCell r 0 = Cell.num (k : Rat))
    (hndA : (rowsYears A).Nodup) (hndC : (rowsYears C).Nodup) :
    ∃ out : DataFrame,
      sort_by_column
        { cols := summaryIntColumns,
          index := List.range (mergeRows A C).length,
          rows := (((((mergeRows A C).map (modifyAt coerceCellInt 0)).map
            (modifyAt coerceCellInt 1)).map (modifyAt coerceCellInt 2)).map
            (modifyAt coerceCellInt 3)).map (modifyAt coerceCellInt 4) } "year" true =
        some out ∧
      out.cols = summaryIntColumns ∧
      (∀ k : Int, Cell.num (k : Rat) ∈ yearCells out ↔
        (Cell.num (k : Rat) ∈ rowsYears A ∨ Cell.num (k : Rat) ∈ rowsYears C)) ∧
      (yearCells out).Pairwise (fun a b => cellLe a b = true ∧ ¬ a = b) ∧
      (∀ r ∈ out.rows,
        (¬ getCell r 0 ∈ rowsYears C →
          getCell r 3 = Cell.num 0 ∧ getCell r 4 = Cell.num 0) ∧
        (¬ getCell r 0 ∈ rowsYears A →
          getCell r 1 = Cell.num 0 ∧ getCell r 2 = Cell.num 0)) ∧
      out.index = List.range out.rows.length := by
  have hMRspec := mergeRows_rows_spec A C hA hC2
  have hMRyears := mergeRows_years A C hA hndC
  -- every year cell of the merged rows is an integer number cell
  have hYint : ∀ y ∈ rowsYears (mergeRows A C), ∃ k : Int, y = Cell.num (k : Rat) := by
    intro y hy
    rw [hMRyears, List.mem_append] at hy
    rcases hy with hy | hy
    · unfold rowsYears at hy
      obtain ⟨r, hr, hyr⟩ := List.mem_map.mp hy
      obtain ⟨k, hk⟩ := hiA r hr
      exact ⟨k, by rw [← hyr, hk]⟩
    · unfold rowsYears at hy
      obtain ⟨rr, hrr, hyr⟩ := List.mem_map.mp hy
      obtain ⟨k, hk⟩ := hiC rr (List.mem_filter.mp hrr).1
      exact ⟨k, by rw [← hyr, hk]⟩
  -- the merged year cells are distinct
  have hndMR : (rowsYears (mergeRows A C)).Nodup := by
    rw [hMRyears, List.nodup_append]
    refine ⟨hndA, ?_, ?_⟩
    · exact ((List.filter_sublist C).map (fun r => getCell r 0)).nodup hndC
    · intro y hyA hyC
      unfold rowsYears at hyC
      obtain ⟨rr, hrr, hyr⟩ := List.mem_map.mp hyC
      have hno := (List.mem_filter.mp hrr).2
      rw [Bool.not_eq_eq_eq_not, Bool.not_true, List.any_eq_false] at hno
      unfold rowsYears at hyA
      obtain ⟨lr, hlr, hyl⟩ := List.mem_map.mp hyA
      exact hno lr hlr (by simp only [decide_eq_true_eq]; rw [hyl, hyr])
  -- year membership across the merge
  have hYmem : ∀ k : Int, Cell.num (k : Rat) ∈ rowsYears (mergeRows A C) ↔
      (Cell.num (k : Rat) ∈ rowsYears A ∨ Cell.num (k : Rat) ∈ rowsYears C) := by
    intro k
    rw [hMRyears, List.mem_append]
    constructor
    · rintro (h | h)
      · exact Or.inl h
      · refine Or.inr ?_
        unfold rowsYears at h ⊢
        obtain ⟨rr, hrr, hyr⟩ := List.mem_map.mp h
        exact List.mem_map.mpr ⟨rr, (List.mem_filter.mp hrr).1, hyr⟩
    · rintro (h | h)
      · exact Or.inl h
      · by_cases hA2 : Cell.num (k : Rat) ∈ rowsYears A
        · exact Or.inl hA2
        · refine Or.inr ?_
          unfold rowsYears at h ⊢
          obtain ⟨rr, hrr, hyr⟩ := List.mem_map.mp h
          refine List.mem_map.mpr ⟨rr, ?_, hyr⟩
          rw [List.mem_filter]
          refine ⟨hrr, ?_⟩
          rw [Bool.not_eq_eq_eq_not, Bool.not_true, List.any_eq_false]
          intro lr hlr
          simp only [decide_eq_true_eq]
          intro hllr
          refine hA2 ?_
          unfold rowsYears
          exact List.mem_map.mpr ⟨lr, hlr, by rw [hllr, hyr]⟩
  -- the five casts act on each row as coerceRow5
  have hDR : (((((mergeRows A C).map (modifyAt coerceCellInt 0)).map
      (modifyAt coerceCellInt 1)).map (modifyAt coerceCellInt 2)).map
      (modifyAt coerceCellInt 3)).map (modifyAt coerceCellInt 4) =
      (mergeRows A C).map coerceRow5 := by
    simp only [List.map_map]
    rfl
  -- coercion leaves the year column unchanged
  have hyDR : rowsYears ((mergeRows A C).map coerceRow5) = rowsYears (mergeRows A C) := by
    unfold rowsYears
    rw [List.map_map]
    refine List.map_congr_left ?_
    intro row hrow
    show getCell (coerceRow5 row) 0 = getCell row 0
    rw [coerceRow5_getCell row ((hMRspec row hrow).1) 0 (by omega)]
    obtain ⟨k, hk⟩ := hYint (getCell row 0) (List.mem_map_of_mem _ hrow)
    rw [hk, coerceCellInt_int]
  -- per-row facts after coercion
  have hDRspec : ∀ r' ∈ (mergeRows A C).map coerceRow5,
      (¬ getCell r' 0 ∈ rowsYears C →
        getCell r' 3 = Cell.num 0 ∧ getCell r' 4 = Cell.num 0) ∧
      (¬ getCell r' 0 ∈ rowsYears A →
        getCell r' 1 = Cell.num 0 ∧ getCell r' 2 = Cell.num 0) ∧
      (∃ k : Int, getCell r' 0 = Cell.num (k : Rat)) := by
    intro r' hr'
    obtain ⟨row, hrow, hrw⟩ := List.mem_map.mp hr'
    subst hrw
    obtain ⟨hlen5, hcases⟩ := hMRspec row hrow
    obtain ⟨k, hk⟩ := hYint (getCell row 0) (List.mem_map_of_mem _ hrow)
    have hy0 : getCell (coerceRow5 row) 0 = getCell row 0 := by
      rw [coerceRow5_getCell row hlen5 0 (by omega), hk, coerceCellInt_int]
    refine ⟨?_, ?_, ⟨k, by rw [hy0, hk]⟩⟩
    · intro hnot
      rw [hy0] at hnot
      rcases hcases with ⟨hyA, hzero⟩ | ⟨hyC, _, _⟩
      · obtain ⟨h3, h4⟩ := hzero hnot
        constructor
        · rw [coerceRow5_getCell row hlen5 3 (by omega), h3]; rfl
        · rw [coerceRow5_getCell row hlen5 4 (by omega), h4]; rfl
      · exact absurd hyC hnot
    · intro hnot
      rw [hy0] at hnot
      rcases hcases with ⟨hyA, _⟩ | ⟨_, _, h1, h2⟩
      · exact absurd hyA hnot
      · constructor
        · rw [coerceRow5_getCell row hlen5 1 (by omega), h1]; rfl
        · rw [coerceRow5_getCell row hlen5 2 (by omega), h2]; rfl
  -- shared facts about the sorted pairs
  have hlenz : ((mergeRows A C).map coerceRow5).length ≤
      (List.range (mergeRows A C).length).length := by
    simp
  have hsnd : (((List.range (mergeRows A C).length).zip
      ((mergeRows A C).map coerceRow5)).map Prod.snd) = (mergeRows A C).map coerceRow5 :=
    List.map_snd_zip _ _ hlenz
  have hperm : (sortBy leYear ((List.range (mergeRows A C).length).zip
      ((mergeRows A C).map coerceRow5))).Perm
      ((List.range (mergeRows A C).length).zip ((mergeRows A C).map coerceRow5)) :=
    sortBy_perm _ _
  have hpmY := (hperm.map Prod.snd).map (fun r => getCell r 0)
  rw [hsnd] at hpmY
  have hPall : ∀ p ∈ (List.range (mergeRows A C).length).zip
      ((mergeRows A C).map coerceRow5), ∃ k : Int, getCell p.2 0 = Cell.num (k : Rat) := by
    intro p hp
    exact (hDRspec p.2 (List.of_mem_zip hp).2).2.2
  have htot : ∀ p q : Nat × List Cell,
      (∃ k : Int, getCell p.2 0 = Cell.num (k : Rat)) →
      (∃ k : Int, getCell q.2 0 = Cell.num (k : Rat)) →
      leYear p q = true ∨ leYear q p = true := by
    rintro p q ⟨k1, h1⟩ ⟨k2, h2⟩
    unfold leYear
    rw [h1, h2]
    rcases le_total (k1 : Rat) (k2 : Rat) with h | h
    · exact Or.inl (by simpa [cellLe] using h)
    · exact Or.inr (by simpa [cellLe] using h)
  have htrans : ∀ p q r : Nat × List Cell,
      (∃ k : Int, getCell p.2 0 = Cell.num (k : Rat)) →
      (∃ k : Int, getCell q.2 0 = Cell.num (k : Rat)) →
      (∃ k : Int, getCell r.2 0 = Cell.num (k : Rat)) →
      leYear p q = true → leYear q r = true → leYear p r = true := by
    rintro p q r ⟨k1, h1⟩ ⟨k2, h2⟩ ⟨k3, h3⟩ hpq hqr
    unfold leYear at hpq hqr ⊢
    rw [h1, h2] at hpq
    rw [h2, h3] at hqr
    rw [h1, h3]
    simp only [cellLe, decide_eq_true_eq] at hpq hqr ⊢
    exact hpq.trans hqr
  have hpw : (sortBy leYear ((List.range (mergeRows A C).length).zip
      ((mergeRows A C).map coerceRow5))).Pairwise (fun p q => leYear p q = true) :=
    pairwise_sortBy_on htot htrans hPall
  -- the sort step, explicitly
  rw [hDR]
  refine ⟨DataFrame.mk summaryIntColumns
      (List.range ((sortBy leYear ((List.range (mergeRows A C).length).zip
        ((mergeRows A C).map coerceRow5))).length))
      ((sortBy leYear ((List.range (mergeRows A C).length).zip
        ((mergeRows A C).map coerceRow5))).map (fun p => p.2)),
    ?_, ?_, ?_, ?_, ?_, ?_⟩
  · -- the sort computes exactly this frame
    rfl
  · -- the five summary columns
    rfl
  · -- year membership
    intro k
    have hy : yearCells (DataFrame.mk summaryIntColumns
        (List.range ((sortBy leYear ((List.range (mergeRows A C).length).zip
          ((mergeRows A C).map coerceRow5))).length))
        ((sortBy leYear ((List.range (mergeRows A C).length).zip
          ((mergeRows A C).map coerceRow5))).map (fun p => p.2))) =
        List.map (fun r => getCell r 0) (List.map Prod.snd (sortBy leYear
          ((List.range (mergeRows A C).length).zip ((mergeRows A C).map coerceRow5)))) := by
      unfold yearCells rowsYears
      simp only [List.map_map]
    rw [hy, hpmY.mem_iff]
    have hy2 : List.map (fun r => getCell r 0) ((mergeRows A C).map coerceRow5) =
        rowsYears ((mergeRows A C).map coerceRow5) := rfl
    rw [hy2, hyDR]
    exact hYmem k
  · -- sorted strictly ascending with no duplicate years
    have hy : yearCells (DataFrame.mk summaryIntColumns
        (List.range ((sortBy leYear ((List.range (mergeRows A C).length).zip
          ((mergeRows A C).map coerceRow5))).length))
        ((sortBy leYear ((List.range (mergeRows A C).length).zip
          ((mergeRows A C).map coerceRow5))).map (fun p => p.2))) =
        List.map (fun r => getCell r 0) (List.map Prod.snd (sortBy leYear
          ((List.range (mergeRows A C).length).zip ((mergeRows A C).map coerceRow5)))) := by
      unfold yearCells rowsYears
      simp only [List.map_map]
    rw [hy]
    refine List.Pairwise.and ?_ ?_
    · rw [List.map_map, List.pairwise_map]
      exact hpw
    · have hnd : (List.map (fun r => getCell r 0) (List.map Prod.snd (sortBy leYear
          ((List.range (mergeRows A C).length).zip
            ((mergeRows A C).map coerceRow5))))).Nodup := by
        rw [hpmY.nodup_iff]
        have hy2 : List.map (fun r => getCell r 0) ((mergeRows A C).map coerceRow5) =
            rowsYears ((mergeRows A C).map coerceRow5) := rfl
        rw [hy2, hyDR]
        exact hndMR
      exact hnd
  · -- zero fill for the absent side
    intro r hr
    obtain ⟨p, hp, hrw⟩ := List.mem_map.mp hr
    subst hrw
    have hpz : p ∈ (List.range (mergeRows A C).length).zip
        ((mergeRows A C).map coerceRow5) := hperm.mem_iff.mp hp
    have hps := hDRspec p.2 (List.of_mem_zip hpz).2
    exact ⟨hps.1, hps.2.1⟩
  · -- contiguous fresh index
    show List.range ((sortBy leYear ((List.range (mergeRows A C).length).zip
        ((mergeRows A C).map coerceRow5))).length) =
      List.range (((sortBy leYear ((List.range (mergeRows A C).length).zip
        ((mergeRows A C).map coerceRow5))).map (fun p => p.2)).length)
    rw [List.length_map]

/-- C1: for every adhesion-by-year table and certification-by-year table
with columns `year`, `installations`, `companies` (rectangular, with
distinct integer-valued years), `build_yearly_summary` succeeds and its
output carries the five summary columns, contains a year exactly once iff
it appears in either input, fills the absent side's two measurement
columns with 0, is sorted strictly ascending by year, and renumbers the
index contiguously from zero. -/
theorem build_yearly_summary_outer_join_complete
    (adh cert : DataFrame)
    (hca : adh.cols = ["year", "installations", "companies"])
    (hcc : cert.cols = ["year", "installations", "companies"])
    (hwfA : wellFormed adh) (hwfC : wellFormed cert)
    (hiA : ∀ r ∈ adh.rows, ∃ k : Int, getCell r 0 = Cell.num (k : Rat))
    (hiC : ∀ r ∈ cert.rows, ∃ k : Int, getCell r 0 = Cell.num (k : Rat))
    (hndA : (yearCells adh).Nodup) (hndC : (yearCells cert).Nodup) :
    ∃ out : DataFrame,
      build_yearly_summary adh cert = some out ∧
      out.cols = summaryIntColumns ∧
      (∀ k : Int, Cell.num (k : Rat) ∈ yearCells out ↔
        (Cell.num (k : Rat) ∈ yearCells adh ∨ Cell.num (k : Rat) ∈ yearCells cert)) ∧
      (yearCells out).Pairwise (fun a b => cellLe a b = true ∧ ¬ a = b) ∧
      (∀ r ∈ out.rows,
        (¬ getCell r 0 ∈ yearCells cert →
          getCell r 3 = Cell.num 0 ∧ getCell r 4 = Cell.num 0) ∧
        (¬ getCell r 0 ∈ yearCells adh →
          getCell r 1 = Cell.num 0 ∧ getCell r 2 = Cell.num 0)) ∧
      out.index = List.range out.rows.length := by
  have hA : ∀ r ∈ adh.rows, r.length = 3 := by
    intro r hr
    have h := hwfA.1 r hr
    rw [hca] at h
    simpa using h
  have hC2 : ∀ r ∈ cert.rows, r.length = 3 := by
    intro r hr
    have h := hwfC.1 r hr
    rw [hcc] at h
    simpa using h
  obtain ⟨out, hsort, hcols, hmem, hpw, hzero, hidx⟩ :=
    summary_core adh.rows cert.rows hA hC2 hiA hiC hndA hndC
  refine ⟨out, ?_, hcols, hmem, hpw, hzero, hidx⟩
  unfold build_yearly_summary
  rw [mergeOuterOn_summary adh cert hca hcc, Option.some_bind,
    summary_coercion _ rfl, Option.some_bind]
  exact hsort

/-- Concrete adhesion-by-year input of the summary witness: two years,
2016 matched on both sides and 2014 on this side only. -/
def summaryWitnessAdh : DataFrame :=
  ⟨["year", "installations", "companies"], [0, 1],
   [[Cell.num ((2016 : Int) : Rat), Cell.num 7, Cell.num 2],
    [Cell.num ((2014 : Int) : Rat), Cell.num 1, Cell.num 1]]⟩

/-- Concrete certification-by-year input of the summary witness: the
matched year 2016 only. -/
def summaryWitnessCert : DataFrame :=
  ⟨["year", "installations", "companies"], [0],
   [[Cell.num ((2016 : Int) : Rat), Cell.num 4, Cell.num 3]]⟩

/-- Instance of the outer-join completeness statement at the two concrete
summary inputs, every hypothesis discharged by evaluation. -/
theorem build_yearly_summary_outer_join_complete_witness :
    ∃ out : DataFrame,
      build_yearly_summary summaryWitnessAdh summaryWitnessCert = some out ∧
      out.cols = summaryIntColumns ∧
      (∀ k : Int, Cell.num (k : Rat) ∈ yearCells out ↔
        (Cell.num (k : Rat) ∈ yearCells summaryWitnessAdh ∨
         Cell.num (k : Rat) ∈ yearCells summaryWitnessCert)) ∧
      (yearCells out).Pairwise (fun a b => cellLe a b = true ∧ ¬ a = b) ∧
      (∀ r ∈ out.rows,
        (¬ getCell r 0 ∈ yearCells summaryWitnessCert →
          getCell r 3 = Cell.num 0 ∧ getCell r 4 = Cell.num 0) ∧
        (¬ getCell r 0 ∈ yearCells summaryWitnessAdh →
          getCell r 1 = Cell.num 0 ∧ getCell r 2 = Cell.num 0)) ∧
      out.index = List.range out.rows.length := by
  refine build_yearly_summary_outer_join_complete summaryWitnessAdh summaryWitnessCert
    rfl rfl (by decide) (by decide) ?_ ?_ (by decide) (by decide)
  · intro r hr
    simp only [summaryWitnessAdh, List.mem_cons, List.not_mem_nil, or_false] at hr
    rcases hr with rfl | rfl
    · exact ⟨2016, rfl⟩
    · exact ⟨2014, rfl⟩
  · intro r hr
    simp only [summaryWitnessCert, List.mem_cons, List.not_mem_nil, or_false] at hr
    rcases hr with rfl
    exact ⟨2016, rfl⟩
